import Mathlib

/-!
# Verification of the Bellman Defense simulation engine

A shallow embedding of the game engine (graph generation, Bellman-Ford
shortest paths, and the tick/command state transforms) together with proofs
of the specified properties.

Modelling conventions:
* JavaScript numbers are embedded as `ℚ` (positions, times, hit points) or
  `ℤ` (weights, money, counters); the `Infinity` distance sentinel is
  `⊤ : WithTop ℤ`.
* `Math.random()` is threaded explicitly as a stream `r : ℕ → ℚ` of draws
  (with the hypothesis `0 ≤ r n < 1` where a theorem needs in-range draws),
  and the random id strings `Math.random().toString(36).substr(2, 9)` as a
  stream `ids : ℕ → String`.
* `Date.now()` is passed in as an explicit `now` parameter.
* `Math.sqrt` is threaded as an explicit parameter `sqrtQ : ℚ → ℚ`, since
  square roots of rationals are not rationals; the theorems below either
  hold for every `sqrtQ` or instantiate it at inputs where the exact root
  is rational.
* The record maps `distances` / `predecessors` are embedded as total
  functions `String → WithTop ℤ` / `String → Option String`; keys outside
  the node-id set never arise for graphs whose edges satisfy the
  endpoints-exist invariant of the data model.
-/

namespace BellmanDefense

/-- `Node` from graph.ts (the unused optional `towerId` display field is
omitted). -/
structure Node where
  id : String
  x : ℚ
  y : ℚ
  isPath : Bool
deriving Repr, DecidableEq

/-- `Edge` from graph.ts. The source fields are named `from`/`to`;
`from` is a Lean keyword, hence `fromId`/`toId`. -/
structure Edge where
  fromId : String
  toId : String
  weight : ℤ
  isWarp : Bool
deriving Repr, DecidableEq

/-- `PathResult` from graph.ts. -/
structure PathResult where
  distances : String → WithTop ℤ
  predecessors : String → Option String
  hasNegativeCycle : Bool

def GRID_SIZE : ℕ := 10

def NODE_SPACING : ℚ := 60

def MARGIN : ℚ := 40

/-- The template-string node id `node_${x}_${y}`. -/
def mkId (x y : ℕ) : String :=
  "node_" ++ toString x ++ "_" ++ toString y

/-- `Math.floor(q * len)` as a list index. -/
def ridx (q : ℚ) (len : ℕ) : ℕ :=
  (⌊q * (len : ℚ)⌋).toNat

/-- Placeholder for lookups that cannot fail on well-formed states (TS uses
a non-null assertion `!` there); it is never the result for in-range data. -/
def defaultNode : Node :=
  { id := "", x := 0, y := 0, isPath := false }

/-- One run of the `while` loop body of `createPath`: a biased random walk
from `(x, y)` toward `(GRID_SIZE-1, GRID_SIZE-1)`.  Each iteration moves one
step right or down and records the new node id; `Math.random()` is consumed
exactly when the short-circuit `curY === GRID_SIZE - 1 || Math.random() > 0.5`
evaluates its right operand.  The walk takes exactly
`(GRID_SIZE-1-x) + (GRID_SIZE-1-y)` steps, so the fuel bound is exact for
real calls; the degenerate no-progress branch mirrors the (unreachable from
the origin) case `y > GRID_SIZE - 1`. Returns the added ids and the next
random index. -/
def carve (r : ℕ → ℚ) : ℕ → ℕ → ℕ → ℕ → List String × ℕ
  | 0, _, _, i => ([], i)
  | fuel + 1, x, y, i =>
    if x < GRID_SIZE - 1 ∨ y < GRID_SIZE - 1 then
      if x < GRID_SIZE - 1 ∧ y = GRID_SIZE - 1 then
        (mkId (x + 1) y :: (carve r fuel (x + 1) y i).1, (carve r fuel (x + 1) y i).2)
      else if x < GRID_SIZE - 1 then
        if r i > 1/2 then
          (mkId (x + 1) y :: (carve r fuel (x + 1) y (i + 1)).1,
            (carve r fuel (x + 1) y (i + 1)).2)
        else if y < GRID_SIZE - 1 then
          (mkId x (y + 1) :: (carve r fuel x (y + 1) (i + 1)).1,
            (carve r fuel x (y + 1) (i + 1)).2)
        else
          carve r fuel x y (i + 1)
      else
        (mkId x (y + 1) :: (carve r fuel x (y + 1) i).1, (carve r fuel x (y + 1) i).2)
    else ([], i)

/-- `createPath` from `generateGraph`: seeds `node_0_0` then walks to the
far corner. -/
def createPath (r : ℕ → ℚ) (i : ℕ) : List String × ℕ :=
  (mkId 0 0 :: (carve r (2 * (GRID_SIZE - 1)) 0 0 i).1, (carve r (2 * (GRID_SIZE - 1)) 0 0 i).2)

/-- The `for (let i = 0; i < numPaths; i++) createPath()` loop. -/
def carveLoop (r : ℕ → ℚ) : ℕ → ℕ → List String × ℕ
  | 0, i => ([], i)
  | k + 1, i =>
    ((createPath r i).1 ++ (carveLoop r k (createPath r i).2).1,
      (carveLoop r k (createPath r i).2).2)

/-- The extra random walkable cells loop: each iteration draws `rx` then
`ry` and adds `node_${rx}_${ry}`. -/
def extraLoop (r : ℕ → ℚ) : ℕ → ℕ → List String × ℕ
  | 0, i => ([], i)
  | k + 1, i =>
    (mkId (ridx (r i) GRID_SIZE) (ridx (r (i + 1)) GRID_SIZE) :: (extraLoop r k (i + 2)).1,
      (extraLoop r k (i + 2)).2)

/-- The node grid: `GRID_SIZE × GRID_SIZE` nodes, walkable exactly when the
id was collected in `pathNodeIds` (the source first builds the nodes with
`isPath: false` and then flips the collected ones; the net effect is this
single pass). -/
def gridNodes (pathIds : List String) : List Node :=
  (List.range GRID_SIZE).flatMap (fun y =>
    (List.range GRID_SIZE).map (fun x =>
      { id := mkId x y,
        x := MARGIN + (x : ℚ) * NODE_SPACING,
        y := MARGIN + (y : ℚ) * NODE_SPACING,
        isPath := pathIds.contains (mkId x y) }))

/-- The bidirectional weight-10 adjacency edges between grid-adjacent
walkable nodes. -/
def adjEdges (pathIds : List String) : List Edge :=
  (List.range GRID_SIZE).flatMap (fun y =>
    (List.range GRID_SIZE).flatMap (fun x =>
      [(x + 1, y), (x, y + 1)].flatMap (fun nb =>
        if nb.1 < GRID_SIZE ∧ nb.2 < GRID_SIZE then
          if pathIds.contains (mkId x y) ∧ pathIds.contains (mkId nb.1 nb.2) then
            [{ fromId := mkId x y, toId := mkId nb.1 nb.2, weight := 10, isWarp := false },
             { fromId := mkId nb.1 nb.2, toId := mkId x y, weight := 10, isWarp := false }]
          else []
        else [])))

/-- The warp-tunnel block of `generateGraph` (stages ≥ 2): at most one
negative edge, whose endpoints are drawn from the candidate filters and
validated by the forward-progress guards. -/
def warpEdges (stage : ℤ) (r : ℕ → ℚ) (i : ℕ) (nodes : List Node) : List Edge :=
  if stage ≥ 2 then
    let pNodes := nodes.filter (fun n => n.isPath)
    if pNodes.length > 10 then
      let candidateFromNodes := pNodes.filter (fun n =>
        decide ((n.x - MARGIN) / NODE_SPACING + (n.y - MARGIN) / NODE_SPACING
          < (GRID_SIZE : ℚ) * (2/5)))
      let candidateToNodes := pNodes.filter (fun n =>
        decide (((GRID_SIZE : ℚ) - 1 - (n.x - MARGIN) / NODE_SPACING)
          + ((GRID_SIZE : ℚ) - 1 - (n.y - MARGIN) / NODE_SPACING) ≥ 8))
      if candidateFromNodes.length > 0 ∧ candidateToNodes.length > 0 then
        let f := candidateFromNodes.getD (ridx (r i) candidateFromNodes.length) defaultNode
        let t := candidateToNodes.getD (ridx (r (i + 1)) candidateToNodes.length) defaultNode
        let fromX := (f.x - MARGIN) / NODE_SPACING
        let fromY := (f.y - MARGIN) / NODE_SPACING
        let toX := (t.x - MARGIN) / NODE_SPACING
        let toY := (t.y - MARGIN) / NODE_SPACING
        let warpDistance := (toX + toY) - (fromX + fromY)
        let totalDistanceEstimate : ℚ := ((GRID_SIZE : ℚ) - 1) * 2
        if f.id ≠ t.id ∧ warpDistance > 2 ∧ warpDistance < totalDistanceEstimate * (1/2) then
          [{ fromId := f.id, toId := t.id, weight := -15, isWarp := true }]
        else []
      else []
    else []
  else []

/-- The record returned by `generateGraph`. -/
structure GeneratedGraph where
  nodes : List Node
  edges : List Edge
  startNodeId : String
  endNodeId : String
deriving Repr

/-- `generateGraph` from graph.ts, with the random stream explicit. -/
def generateGraph (stage : ℤ) (r : ℕ → ℚ) : GeneratedGraph :=
  let numPaths := (min stage 3).toNat
  let carved := (carveLoop r numPaths 0).1
  let i1 := (carveLoop r numPaths 0).2
  let extras := (extraLoop r (10 + stage * 5).toNat i1).1
  let i2 := (extraLoop r (10 + stage * 5).toNat i1).2
  let pathIds := carved ++ extras
  let nodes := gridNodes pathIds
  let edges := adjEdges pathIds ++ warpEdges stage r i2 nodes
  { nodes := nodes, edges := edges,
    startNodeId := mkId 0 0,
    endNodeId := mkId (GRID_SIZE - 1) (GRID_SIZE - 1) }

/-- The mutable state of the Bellman-Ford relaxation loop. -/
structure BFState where
  dist : String → WithTop ℤ
  pred : String → Option String
  changed : Bool

/-- One relaxation attempt of a single edge (the body of the inner `for`
loop). `Infinity + w` is `⊤ + w = ⊤`, which is never `<` anything, exactly
as in JS. -/
def relaxEdge (st : BFState) (e : Edge) : BFState :=
  if st.dist e.fromId + (e.weight : WithTop ℤ) < st.dist e.toId then
    { dist := fun v => if v = e.toId then st.dist e.fromId + (e.weight : WithTop ℤ) else st.dist v,
      pred := fun v => if v = e.toId then some e.fromId else st.pred v,
      changed := true }
  else st

/-- One full pass over the edge list, starting with `changed = false`. -/
def relaxPass (edges : List Edge) (d : String → WithTop ℤ) (p : String → Option String) :
    BFState :=
  edges.foldl relaxEdge { dist := d, pred := p, changed := false }

/-- The outer loop: up to `k` passes, stopping early when a pass changes
nothing. -/
def bfLoop (edges : List Edge) :
    ℕ → (String → WithTop ℤ) → (String → Option String) →
    (String → WithTop ℤ) × (String → Option String)
  | 0, d, p => (d, p)
  | k + 1, d, p =>
    let st := relaxPass edges d p
    if st.changed then bfLoop edges k st.dist st.pred else (st.dist, st.pred)

/-- `bellmanFord` from graph.ts: `nodes.length - 1` relaxation passes with
early exit, then one detection pass over the edges. -/
def bellmanFord (nodes : List Node) (edges : List Edge) (sourceId : String) : PathResult :=
  let d0 : String → WithTop ℤ := fun v => if v = sourceId then ((0 : ℤ) : WithTop ℤ) else ⊤
  let p0 : String → Option String := fun _ => none
  let dp := bfLoop edges (nodes.length - 1) d0 p0
  { distances := dp.1,
    predecessors := dp.2,
    hasNegativeCycle :=
      edges.any (fun e => decide (dp.1 e.fromId + (e.weight : WithTop ℤ) < dp.1 e.toId)) }

/-! ## Game engine (engine.ts) -/

inductive EnemyType where
  | basic | scout | tank | ghost
deriving Repr, DecidableEq

inductive TowerType where
  | basic | sniper | slow | fast_shot | heavy_shot | area_damage
deriving Repr, DecidableEq

/-- The upgrade choices accepted by `upgradeTower`. -/
inductive UpgradeKind where
  | fast_shot | heavy_shot | area_damage
deriving Repr, DecidableEq

inductive GameStatus where
  | build_phase | wave_countdown | playing | stage_transition | game_over | paused
deriving Repr, DecidableEq

structure Enemy where
  id : String
  type : EnemyType
  hp : ℚ
  maxHp : ℚ
  speed : ℚ
  currentNodeId : String
  nextNodeId : Option String
  x : ℚ
  y : ℚ
  progress : ℚ
  reward : ℤ
deriving Repr, DecidableEq

structure Tower where
  id : String
  nodeId : String
  type : TowerType
  damage : ℤ
  range : ℚ
  fireRate : ℚ
  lastFired : ℚ
  cost : ℤ
  tier : ℤ
  aoe : Option ℚ
deriving Repr, DecidableEq

structure Projectile where
  id : String
  x : ℚ
  y : ℚ
  targetId : String
  speed : ℚ
  damage : ℤ
  aoe : Option ℚ
deriving Repr, DecidableEq

structure RoadBlock where
  nodeId : String
  expiresAt : ℚ
deriving Repr, DecidableEq

structure GameState where
  nodes : List Node
  edges : List Edge
  enemies : List Enemy
  towers : List Tower
  projectiles : List Projectile
  roadBlocks : List RoadBlock
  money : ℤ
  lives : ℤ
  wave : ℤ
  stage : ℤ
  maxWavesPerStage : ℤ
  status : GameStatus
  timer : ℚ
  spawnTimer : ℚ
  enemiesToSpawn : ℤ
  startNodeId : String
  endNodeId : String
deriving Repr, DecidableEq

def WAVES_PER_STAGE : ℤ := 5

/-- Base archetype stats (the `icon` display field is omitted). -/
structure EnemyStats where
  hp : ℚ
  speed : ℚ
  reward : ℤ
deriving Repr

def ENEMY_TYPES : EnemyType → EnemyStats
  | .scout => { hp := 30, speed := 5/2, reward := 6 }
  | .basic => { hp := 60, speed := 3/2, reward := 8 }
  | .tank => { hp := 200, speed := 4/5, reward := 18 }
  | .ghost => { hp := 100, speed := 6/5, reward := 15 }

/-- `initGameState` from engine.ts. -/
def initGameState (r : ℕ → ℚ) : GameState :=
  let g := generateGraph 1 r
  { nodes := g.nodes, edges := g.edges, enemies := [], towers := [], projectiles := [],
    money := 800, lives := 20, wave := 0, stage := 1,
    maxWavesPerStage := WAVES_PER_STAGE, status := .build_phase, timer := 10000,
    spawnTimer := 0, enemiesToSpawn := 0,
    startNodeId := g.startNodeId, endNodeId := g.endNodeId, roadBlocks := [] }

/-- `startNextWave` from engine.ts; `generateGraph` for the next stage draws
from the explicit random stream. -/
def startNextWave (r : ℕ → ℚ) (state : GameState) : GameState :=
  if state.wave ≥ state.maxWavesPerStage then
    let nextStage := state.stage + 1
    let map := generateGraph nextStage r
    { state with
      nodes := map.nodes, edges := map.edges,
      startNodeId := map.startNodeId, endNodeId := map.endNodeId,
      stage := nextStage, wave := 1, lives := 20, money := 800,
      towers := [], enemies := [], projectiles := [], roadBlocks := [],
      status := .playing, enemiesToSpawn := 10 + nextStage * 2 }
  else
    { state with
      wave := state.wave + 1, status := .playing,
      enemiesToSpawn := 10 + (state.wave + 1) * 2 }

/-- `upgradeTower` from engine.ts.  `findIndex` on the tower id, an upfront
`money < 200` check, the tier-specific stat rewrite, and the cost deduction
(for tier 1 the closing `money < cost` recheck with `cost = 200` is already
implied by the upfront check, for tier 2 by the `money < 400` check). -/
def upgradeTower (state : GameState) (towerId : String) (upgradeType : UpgradeKind) :
    GameState :=
  match state.towers.findIdx? (fun t => t.id == towerId) with
  | none => state
  | some towerIndex =>
    if state.money < 200 then state
    else
      match state.towers[towerIndex]? with
      | none => state
      | some tower =>
        if tower.tier = 1 then
          let upgradedTower : Tower :=
            match upgradeType with
            | .fast_shot =>
              { tower with
                tier := 2, cost := tower.cost + 200,
                type := .fast_shot, fireRate := 300, damage := 8 }
            | .heavy_shot =>
              { tower with
                tier := 2, cost := tower.cost + 200,
                type := .heavy_shot, fireRate := 1500, damage := 50, range := 180 }
            | .area_damage =>
              { tower with
                tier := 2, cost := tower.cost + 200,
                type := .area_damage, aoe := some 50, damage := 15, fireRate := 1200 }
          { state with
            money := state.money - 200,
            towers := state.towers.set towerIndex upgradedTower }
        else if tower.tier = 2 then
          if state.money < 400 then state
          else
            let upgradedTower : Tower :=
              if tower.type = .fast_shot then
                { tower with tier := 3, cost := tower.cost + 400, fireRate := 100, damage := 12 }
              else if tower.type = .heavy_shot then
                { tower with
                  tier := 3, cost := tower.cost + 400,
                  fireRate := 3000, damage := 250, range := 300 }
              else if tower.type = .area_damage then
                { tower with
                  tier := 3, cost := tower.cost + 400,
                  aoe := some 100, damage := 40, fireRate := 2000 }
              else { tower with tier := 3, cost := tower.cost + 400 }
            { state with
              money := state.money - 400,
              towers := state.towers.set towerIndex upgradedTower }
        else state

/-- `placeTower` from engine.ts; `newId` is the random id string. -/
def placeTower (state : GameState) (nodeId : String) (newId : String) : GameState :=
  match state.nodes.find? (fun n => n.id == nodeId) with
  | none => state
  | some node =>
    if node.isPath ∨ state.money < 100 then state
    else if (state.towers.find? (fun t => t.nodeId == nodeId)).isSome then state
    else
      let newTower : Tower :=
        { id := newId, nodeId := nodeId, type := .basic, damage := 10, range := 120,
          fireRate := 800, lastFired := 0, cost := 100, tier := 1, aoe := none }
      { state with
        money := state.money - 100, towers := state.towers ++ [newTower] }

/-- `placeRoadBlock` from engine.ts; `now` is `Date.now()`. -/
def placeRoadBlock (state : GameState) (nodeId : String) (now : ℚ) : GameState :=
  match state.nodes.find? (fun n => n.id == nodeId) with
  | none => state
  | some node =>
    if ¬ node.isPath ∨ state.money < 50 then state
    else if (state.roadBlocks.find? (fun rb => rb.nodeId == nodeId)).isSome then state
    else
      { state with
        money := state.money - 50,
        roadBlocks := state.roadBlocks ++ [{ nodeId := nodeId, expiresAt := now + 5000 }] }

/-- The per-edge dynamic-weight recomputation of `updateGame`: road blocks
make an edge effectively impassable, otherwise each tower within distance
100 of the edge target adds 20. -/
def dynamicWeight (sqrtQ : ℚ → ℚ) (nodes : List Node) (towers : List Tower)
    (roadBlocks : List RoadBlock) (e : Edge) : Edge :=
  let toNode := (nodes.find? (fun n => n.id == e.toId)).getD defaultNode
  let isBlocked := roadBlocks.any (fun rb => rb.nodeId == e.toId || rb.nodeId == e.fromId)
  let weight :=
    if isBlocked then 1000000
    else
      towers.foldl (fun w t =>
        let tNode := (nodes.find? (fun n => n.id == t.nodeId)).getD defaultNode
        let dist := sqrtQ ((tNode.x - toNode.x) * (tNode.x - toNode.x)
          + (tNode.y - toNode.y) * (tNode.y - toNode.y))
        if dist < 100 then w + 20 else w) e.weight
  { e with weight := weight }

/-- Accumulator of the enemy movement/removal `filter` (which also mutates
`lives` and `status` when an enemy reaches the goal). -/
structure MoveAcc where
  kept : List Enemy
  lives : ℤ
  status : GameStatus

/-- The in-transit update of one enemy with a (truthy) next node: advance
interpolation progress unless the next node is blocked, then either arrive
(snap to the next node) or interpolate the position. -/
def moveEnemyCore (nodes : List Node) (roadBlocks : List RoadBlock) (deltaTime : ℚ)
    (enemy : Enemy) (next : String) : Enemy :=
  let isNextNodeBlocked := roadBlocks.any (fun rb => rb.nodeId == next)
  let progress1 :=
    if ¬ isNextNodeBlocked then enemy.progress + enemy.speed * deltaTime / 1000
    else enemy.progress
  let startNode := (nodes.find? (fun n => n.id == enemy.currentNodeId)).getD defaultNode
  let endNode := (nodes.find? (fun n => n.id == next)).getD defaultNode
  if progress1 ≥ 1 then
    { enemy with progress := 0, currentNodeId := next, x := endNode.x, y := endNode.y }
  else if ¬ isNextNodeBlocked then
    { enemy with
      progress := progress1,
      x := startNode.x + (endNode.x - startNode.x) * progress1,
      y := startNode.y + (endNode.y - startNode.y) * progress1 }
  else enemy

/-- The body of the enemy movement `filter` callback.  `!enemy.nextNodeId`
is JS falsiness: it holds for `null`/`undefined` and for the empty
string. -/
def stepEnemy (nodes : List Node) (roadBlocks : List RoadBlock) (endNodeId : String)
    (pred : String → Option String) (deltaTime : ℚ) (acc : MoveAcc) (enemy0 : Enemy) :
    MoveAcc :=
  let nextId := pred enemy0.currentNodeId
  let enemy := { enemy0 with nextNodeId := nextId }
  if nextId = none ∨ nextId = some "" then
    if enemy.currentNodeId = endNodeId then
      let lives' := acc.lives - 1
      { kept := acc.kept,
        lives := lives',
        status := if lives' ≤ 0 then .game_over else acc.status }
    else { acc with kept := acc.kept ++ [enemy] }
  else
    let enemy' := moveEnemyCore nodes roadBlocks deltaTime enemy (nextId.getD "")
    if enemy'.hp > 0 then { acc with kept := acc.kept ++ [enemy'] } else acc

/-- Replace the first list element satisfying `p` (models mutating the
object returned by `Array.prototype.find`). -/
def updateFirst (p : α → Bool) (f : α → α) : List α → List α
  | [] => []
  | a :: l => if p a then f a :: l else a :: updateFirst p f l

/-- The area-damage `forEach` of a projectile impact: every enemy within
`aoe` of the impact point takes the damage, and its reward is credited
exactly when the hit crosses its hit points from positive to
non-positive. -/
def applyAoe (sqrtQ : ℚ → ℚ) (px py : ℚ) (damage : ℤ) (aoe : ℚ) :
    List Enemy → ℤ → List Enemy × ℤ
  | [], money => ([], money)
  | e :: rest, money =>
    let edx := e.x - px
    let edy := e.y - py
    let edist := sqrtQ (edx * edx + edy * edy)
    if edist ≤ aoe then
      let e' := { e with hp := e.hp - (damage : ℚ) }
      let money' :=
        if e'.hp ≤ 0 ∧ e'.hp + (damage : ℚ) > 0 then money + e.reward else money
      (e' :: (applyAoe sqrtQ px py damage aoe rest money').1,
        (applyAoe sqrtQ px py damage aoe rest money').2)
    else
      (e :: (applyAoe sqrtQ px py damage aoe rest money).1,
        (applyAoe sqrtQ px py damage aoe rest money).2)

/-- Accumulator of the projectile `filter` (which also mutates enemies and
money). -/
structure ProjAcc where
  enemies : List Enemy
  money : ℤ
  keptProjectiles : List Projectile

/-- The body of the projectile `filter` callback.  `if (p.aoe)` is JS
truthiness, so an absent or zero radius selects the single-target
branch. -/
def stepProjectile (sqrtQ : ℚ → ℚ) (deltaTime : ℚ) (acc : ProjAcc) (p : Projectile) :
    ProjAcc :=
  match acc.enemies.find? (fun e => e.id == p.targetId) with
  | none => acc
  | some target =>
    let dx := target.x - p.x
    let dy := target.y - p.y
    let dist := sqrtQ (dx * dx + dy * dy)
    if dist < 5 then
      let aoeVal := p.aoe.getD 0
      if aoeVal ≠ 0 then
        let em := applyAoe sqrtQ p.x p.y p.damage aoeVal acc.enemies acc.money
        { acc with enemies := em.1, money := em.2 }
      else
        let newHp := target.hp - (p.damage : ℚ)
        let enemies' := updateFirst (fun e => e.id == p.targetId)
          (fun e => { e with hp := e.hp - (p.damage : ℚ) }) acc.enemies
        let money' := if newHp ≤ 0 then acc.money + target.reward else acc.money
        { acc with enemies := enemies', money := money' }
    else
      let move := p.speed * deltaTime / 1000
      let p' := { p with x := p.x + dx / dist * move, y := p.y + dy / dist * move }
      { acc with keptProjectiles := acc.keptProjectiles ++ [p'] }

/-- Accumulator of the tower firing loop. -/
structure TowerAcc where
  towers : List Tower
  projectiles : List Projectile
  idIdx : ℕ

/-- The body of the tower firing loop: a ready tower targets the first
enemy within range and spawns a projectile. -/
def stepTower (sqrtQ : ℚ → ℚ) (ids : ℕ → String) (nodes : List Node)
    (enemies : List Enemy) (now : ℚ) (acc : TowerAcc) (tower : Tower) : TowerAcc :=
  if now - tower.lastFired > tower.fireRate then
    let towerNode := (nodes.find? (fun n => n.id == tower.nodeId)).getD defaultNode
    match enemies.find? (fun e =>
      decide (sqrtQ ((e.x - towerNode.x) * (e.x - towerNode.x)
        + (e.y - towerNode.y) * (e.y - towerNode.y)) ≤ tower.range)) with
    | some target =>
      { towers := acc.towers ++ [{ tower with lastFired := now }],
        projectiles := acc.projectiles ++
          [{ id := ids acc.idIdx, x := towerNode.x, y := towerNode.y,
             targetId := target.id, speed := 300, damage := tower.damage,
             aoe := tower.aoe }],
        idIdx := acc.idIdx + 1 }
    | none => { acc with towers := acc.towers ++ [tower] }
  else { acc with towers := acc.towers ++ [tower] }

/-- The spawn block of `updateGame`: while spawns remain, accumulate the
spawn timer; past 1000ms, reset it, decrement the remaining count and push
one enemy of a randomly chosen, stage/wave-gated archetype at the start
node. -/
def spawnStep (r : ℕ → ℚ) (ids : ℕ → String) (s1 : GameState) (deltaTime : ℚ) : GameState :=
  if s1.enemiesToSpawn > 0 then
    let st := s1.spawnTimer + deltaTime
    if st > 1000 then
      let startNode := (s1.nodes.find? (fun n => n.id == s1.startNodeId)).getD defaultNode
      let rand := r 0
      let etype : EnemyType :=
        if s1.stage ≥ 3 ∧ rand < 3/20 then .ghost
        else if s1.wave % 5 = 0 ∧ rand < 3/10 then .tank
        else if rand < 1/5 then .scout
        else .basic
      let baseStats := ENEMY_TYPES etype
      let scaling : ℚ := 1 + ((s1.stage : ℚ) - 1) * (1/2) + ((s1.wave : ℚ) - 1) * (1/10)
      { s1 with
        spawnTimer := 0, enemiesToSpawn := s1.enemiesToSpawn - 1,
        enemies := s1.enemies ++
          [{ id := ids 0, type := etype, hp := baseStats.hp * scaling,
             maxHp := baseStats.hp * scaling, speed := baseStats.speed,
             currentNodeId := s1.startNodeId, nextNodeId := none,
             x := startNode.x, y := startNode.y, progress := 0,
             reward := baseStats.reward }] }
    else { s1 with spawnTimer := st }
  else s1

/-- The pathfinding-and-movement block of `updateGame`: goal-rooted
Bellman-Ford on the reversed dynamic edges, then the per-enemy
move/goal/removal filter. -/
def movementStep (dynamicEdges : List Edge) (s2 : GameState) (deltaTime : ℚ) : GameState :=
  let reversedEdges := dynamicEdges.map (fun e => { e with fromId := e.toId, toId := e.fromId })
  let toEnd := bellmanFord s2.nodes reversedEdges s2.endNodeId
  let m : MoveAcc := s2.enemies.foldl
    (stepEnemy s2.nodes s2.roadBlocks s2.endNodeId toEnd.predecessors deltaTime)
    { kept := [], lives := s2.lives, status := s2.status }
  { s2 with enemies := m.kept, lives := m.lives, status := m.status }

/-- The projectile block of `updateGame`: advance or resolve every
in-flight projectile. -/
def projectileStep (sqrtQ : ℚ → ℚ) (s3 : GameState) (deltaTime : ℚ) : GameState :=
  let pr : ProjAcc := s3.projectiles.foldl (stepProjectile sqrtQ deltaTime)
    { enemies := s3.enemies, money := s3.money, keptProjectiles := [] }
  { s3 with enemies := pr.enemies, money := pr.money, projectiles := pr.keptProjectiles }

/-- The tower block of `updateGame`: every ready tower fires at the first
enemy in range. -/
def towerStep (sqrtQ : ℚ → ℚ) (ids : ℕ → String) (s4 : GameState) (now : ℚ) : GameState :=
  let tw : TowerAcc := s4.towers.foldl (stepTower sqrtQ ids s4.nodes s4.enemies now)
    { towers := [], projectiles := s4.projectiles, idIdx := 1 }
  { s4 with towers := tw.towers, projectiles := tw.projectiles }

/-- The wave-completion check of `updateGame`. -/
def waveCheck (s5 : GameState) : GameState :=
  if s5.enemies.length = 0 ∧ s5.enemiesToSpawn = 0 ∧ s5.status = .playing then
    if s5.wave ≥ s5.maxWavesPerStage then
      { s5 with status := .stage_transition, timer := 10000 }
    else { s5 with status := .wave_countdown, timer := 5000 }
  else s5

/-- `updateGame` from engine.ts: the per-tick simulation step.
Countdown phases only run the timer; `game_over` is returned unchanged;
every other status (including `paused`, which the source does NOT
special-case — the caller in App.tsx skips the call instead) falls through
to road-block expiry, dynamic weights, spawning, goal-rooted pathfinding on
the reversed graph, movement, projectile resolution, tower firing and the
wave-completion check, in the source's order.  The dynamic edge weights
are computed, as in the source, before the spawn block (they depend only
on fields the spawn block leaves untouched). -/
def updateGame (sqrtQ : ℚ → ℚ) (r : ℕ → ℚ) (ids : ℕ → String) (state : GameState)
    (deltaTime : ℚ) (now : ℚ) : GameState :=
  if state.status = .build_phase ∨ state.status = .stage_transition
      ∨ state.status = .wave_countdown then
    let s := { state with timer := state.timer - deltaTime }
    if s.timer ≤ 0 then startNextWave r s else s
  else if state.status = .game_over then state
  else
    let s1 := { state with roadBlocks := state.roadBlocks.filter (fun rb => rb.expiresAt > now) }
    let dynamicEdges := s1.edges.map (dynamicWeight sqrtQ s1.nodes s1.towers s1.roadBlocks)
    waveCheck (towerStep sqrtQ ids
      (projectileStep sqrtQ (movementStep dynamicEdges (spawnStep r ids s1 deltaTime) deltaTime)
        deltaTime) now)

/-! ## Walks and shortest-path semantics -/

/-- A walk from `u` to `v` along edges of `es`. -/
def IsWalkFrom (es : List Edge) : String → String → List Edge → Prop
  | u, v, [] => u = v
  | u, v, e :: w => e ∈ es ∧ e.fromId = u ∧ IsWalkFrom es e.toId v w

/-- Total weight of a walk. -/
def weightSum (w : List Edge) : ℤ :=
  (w.map Edge.weight).sum

theorem weightSum_nil : weightSum [] = 0 := rfl

theorem weightSum_cons (e : Edge) (w : List Edge) :
    weightSum (e :: w) = e.weight + weightSum w := by
  simp [weightSum]

theorem weightSum_append (w₁ w₂ : List Edge) :
    weightSum (w₁ ++ w₂) = weightSum w₁ + weightSum w₂ := by
  simp [weightSum]

theorem isWalkFrom_nil {es : List Edge} {u v : String} :
    IsWalkFrom es u v [] ↔ u = v := Iff.rfl

theorem isWalkFrom_cons {es : List Edge} {u v : String} {e : Edge} {w : List Edge} :
    IsWalkFrom es u v (e :: w) ↔ e ∈ es ∧ e.fromId = u ∧ IsWalkFrom es e.toId v w := Iff.rfl

theorem isWalkFrom_append {es : List Edge} {u m v : String} {w₁ w₂ : List Edge}
    (h₁ : IsWalkFrom es u m w₁) (h₂ : IsWalkFrom es m v w₂) :
    IsWalkFrom es u v (w₁ ++ w₂) := by
  induction w₁ generalizing u with
  | nil => rw [isWalkFrom_nil] at h₁; simpa [h₁] using h₂
  | cons e w ih =>
    obtain ⟨he, hf, hw⟩ := h₁
    exact ⟨he, hf, ih hw⟩

theorem isWalkFrom_snoc {es : List Edge} {u v : String} {w : List Edge} {e : Edge} :
    IsWalkFrom es u v (w ++ [e]) ↔ IsWalkFrom es u e.fromId w ∧ e ∈ es ∧ e.toId = v := by
  induction w generalizing u with
  | nil =>
    simp only [List.nil_append, isWalkFrom_cons, isWalkFrom_nil]
    constructor
    · rintro ⟨he, hf, ht⟩; exact ⟨hf.symm, he, ht⟩
    · rintro ⟨hf, he, ht⟩; exact ⟨he, hf.symm, ht⟩
  | cons a w ih =>
    simp only [List.cons_append, isWalkFrom_cons, ih, and_assoc]

theorem isWalkFrom_sub {es es' : List Edge} {u v : String} {w : List Edge}
    (hsub : ∀ e ∈ es, e ∈ es') (hw : IsWalkFrom es u v w) : IsWalkFrom es' u v w := by
  induction w generalizing u with
  | nil => exact hw
  | cons e w ih =>
    obtain ⟨he, hf, hrest⟩ := hw
    exact ⟨hsub e he, hf, ih hrest⟩

theorem isWalkFrom_mem_edges {es : List Edge} {u v : String} {w : List Edge}
    (hw : IsWalkFrom es u v w) : ∀ e ∈ w, e ∈ es := by
  induction w generalizing u with
  | nil => intro e he; cases he
  | cons a w ih =>
    obtain ⟨ha, _, hrest⟩ := hw
    intro e he
    rcases List.mem_cons.mp he with h | h
    · exact h ▸ ha
    · exact ih hrest e h

/-- Telescoping: the weight of a walk equals the sum of the reduced weights
`w(e) + φ(from e) - φ(to e)` minus the potential difference of its
endpoints. -/
theorem weightSum_eq_reduced {es : List Edge} (φ : String → ℚ) {u v : String} {w : List Edge}
    (hw : IsWalkFrom es u v w) :
    (weightSum w : ℚ) =
      (w.map (fun e => (e.weight : ℚ) + φ e.fromId - φ e.toId)).sum + φ v - φ u := by
  induction w generalizing u with
  | nil => rw [isWalkFrom_nil] at hw; subst hw; simp [weightSum]
  | cons e w ih =>
    obtain ⟨_, hf, hrest⟩ := hw
    have := ih hrest
    rw [weightSum_cons]
    push_cast
    rw [this, List.map_cons, List.sum_cons, hf]
    ring

/-- If every reduced weight is nonnegative, every closed walk has
nonnegative total weight. -/
theorem closed_walk_weight_nonneg {es : List Edge} {φ : String → ℚ}
    (hred : ∀ e ∈ es, 0 ≤ (e.weight : ℚ) + φ e.fromId - φ e.toId)
    {x : String} {w : List Edge} (hw : IsWalkFrom es x x w) : 0 ≤ weightSum w := by
  have h := weightSum_eq_reduced φ hw
  have hsum : 0 ≤ (w.map (fun e => (e.weight : ℚ) + φ e.fromId - φ e.toId)).sum := by
    apply List.sum_nonneg
    intro q hq
    obtain ⟨e, he, rfl⟩ := List.mem_map.mp hq
    exact hred e (isWalkFrom_mem_edges hw e he)
  have : (0 : ℚ) ≤ (weightSum w : ℚ) := by rw [h]; linarith
  exact_mod_cast this

/-- A walk that visits `x` strictly after its start splits at `x`. -/
theorem walk_split_at_mem {es : List Edge} {u v x : String} {w : List Edge}
    (hw : IsWalkFrom es u v w) (hx : x ∈ w.map Edge.toId) :
    ∃ w₂ w₃, w = w₂ ++ w₃ ∧ w₂ ≠ [] ∧ IsWalkFrom es u x w₂ ∧ IsWalkFrom es x v w₃ := by
  induction w generalizing u with
  | nil => simp at hx
  | cons e w ih =>
    obtain ⟨he, hf, hrest⟩ := hw
    rcases List.mem_map.mp hx with ⟨e', he', hx'⟩
    rcases List.mem_cons.mp he' with h | h
    · by_cases hex : e.toId = x
      · exact ⟨[e], w, rfl, by simp, ⟨he, hf, hex⟩, hex ▸ hrest⟩
      · subst h; exact absurd hx' hex
    · by_cases hex : e.toId = x
      · exact ⟨[e], w, rfl, by simp, ⟨he, hf, hex⟩, hex ▸ hrest⟩
      · have hx2 : x ∈ w.map Edge.toId := List.mem_map.mpr ⟨e', h, hx'⟩
        obtain ⟨w₂, w₃, heq, hne, hw₂, hw₃⟩ := ih hrest hx2
        exact ⟨e :: w₂, w₃, by rw [heq]; rfl, by simp, ⟨he, hf, hw₂⟩, hw₃⟩

/-- A walk whose visited-node list has a duplicate contains a nonempty
closed sub-walk. -/
theorem walk_split_at_dup {es : List Edge} :
    ∀ (w : List Edge) (u v : String), IsWalkFrom es u v w →
      ¬ (u :: w.map Edge.toId).Nodup →
      ∃ x w₁ w₂ w₃, w = w₁ ++ w₂ ++ w₃ ∧ w₂ ≠ [] ∧
        IsWalkFrom es u x w₁ ∧ IsWalkFrom es x x w₂ ∧ IsWalkFrom es x v w₃ := by
  intro w
  induction w with
  | nil => intro u v _ hnd; simp at hnd
  | cons e w ih =>
    intro u v hw hnd
    obtain ⟨he, hf, hrest⟩ := hw
    by_cases hu : u ∈ (e :: w).map Edge.toId
    · obtain ⟨w₂, w₃, heq, hne, hw₂, hw₃⟩ :=
        walk_split_at_mem (isWalkFrom_cons.mpr ⟨he, hf, hrest⟩) hu
      exact ⟨u, [], w₂, w₃, by simpa using heq, hne, isWalkFrom_nil.mpr rfl, hw₂, hw₃⟩
    · have hnd2 : ¬ (e.toId :: w.map Edge.toId).Nodup := by
        intro hcon
        exact hnd (List.nodup_cons.mpr ⟨hu, by simpa using hcon⟩)
      obtain ⟨x, w₁, w₂, w₃, heq, hne, hw₁, hw₂, hw₃⟩ := ih e.toId v hrest hnd2
      exact ⟨x, e :: w₁, w₂, w₃, by rw [heq]; rfl, hne, ⟨he, hf, hw₁⟩, hw₂, hw₃⟩

/-- With nonnegative reduced weights, every walk can be shortened to a walk
with no repeated visited node, of no larger weight and length. -/
theorem walk_shorten {es : List Edge} {φ : String → ℚ}
    (hred : ∀ e ∈ es, 0 ≤ (e.weight : ℚ) + φ e.fromId - φ e.toId) :
    ∀ (n : ℕ) (w : List Edge) (u v : String), w.length ≤ n → IsWalkFrom es u v w →
      ∃ w', IsWalkFrom es u v w' ∧ (u :: w'.map Edge.toId).Nodup ∧
        weightSum w' ≤ weightSum w ∧ w'.length ≤ w.length := by
  intro n
  induction n with
  | zero =>
    intro w u v hlen hw
    rw [Nat.le_zero, List.length_eq_zero] at hlen
    subst hlen
    exact ⟨[], hw, by simp, le_refl _, le_refl _⟩
  | succ n ih =>
    intro w u v hlen hw
    by_cases hnd : (u :: w.map Edge.toId).Nodup
    · exact ⟨w, hw, hnd, le_refl _, le_refl _⟩
    · obtain ⟨x, w₁, w₂, w₃, heq, hne, hw₁, hw₂, hw₃⟩ := walk_split_at_dup w u v hw hnd
      have hlen2 : (w₁ ++ w₃).length ≤ n := by
        have h1 : w.length = w₁.length + w₂.length + w₃.length := by simp [heq]; omega
        have h2 : 1 ≤ w₂.length := by
          rcases w₂ with _ | ⟨a, t⟩
          · exact absurd rfl hne
          · simp
        simp only [List.length_append]
        omega
      obtain ⟨w', hw', hnd', hws', hlen'⟩ :=
        ih (w₁ ++ w₃) u v hlen2 (isWalkFrom_append hw₁ hw₃)
      refine ⟨w', hw', hnd', ?_, ?_⟩
      · have h2 : 0 ≤ weightSum w₂ := closed_walk_weight_nonneg hred hw₂
        have h3 : weightSum w = weightSum w₁ + weightSum w₂ + weightSum w₃ := by
          rw [heq, weightSum_append, weightSum_append]
        have h4 : weightSum (w₁ ++ w₃) = weightSum w₁ + weightSum w₃ := weightSum_append _ _
        omega
      · have h1 : w.length = w₁.length + w₂.length + w₃.length := by simp [heq]; omega
        have : (w₁ ++ w₃).length ≤ w.length := by
          simp only [List.length_append]; omega
        omega

/-- All nodes visited by a nonempty walk lie in the endpoint universe of
its edge set. -/
theorem walk_visited_mem {es : List Edge} {ids : List String} {u v : String} {w : List Edge}
    (hin : ∀ e ∈ es, e.fromId ∈ ids ∧ e.toId ∈ ids)
    (hw : IsWalkFrom es u v w) (hne : w ≠ []) :
    ∀ z ∈ u :: w.map Edge.toId, z ∈ ids := by
  rcases w with _ | ⟨e, w⟩
  · exact absurd rfl hne
  · obtain ⟨he, hf, hrest⟩ := hw
    intro z hz
    rcases List.mem_cons.mp hz with h | h
    · subst h; exact hf ▸ (hin e he).1
    · obtain ⟨e', he', rfl⟩ := List.mem_map.mp h
      have : e' ∈ es := isWalkFrom_mem_edges (isWalkFrom_cons.mpr ⟨he, hf, hrest⟩) e' he'
      exact (hin e' this).2

/-- A duplicate-free list contained in another list is no longer than it. -/
theorem nodup_length_le {α : Type _} [DecidableEq α] {l L : List α}
    (hnd : l.Nodup) (hsub : ∀ x ∈ l, x ∈ L) : l.length ≤ L.length := by
  have h1 : l.toFinset.card = l.length := List.toFinset_card_of_nodup hnd
  have h2 : l.toFinset ⊆ L.toFinset := by
    intro x hx
    rw [List.mem_toFinset] at hx ⊢
    exact hsub x hx
  calc l.length = l.toFinset.card := h1.symm
    _ ≤ L.toFinset.card := Finset.card_le_card h2
    _ ≤ L.length := L.toFinset_card_le

/-! ## Invariants of the relaxation loop -/

/-- Every finite tentative distance is realized by a walk from the
source. -/
def Sound (edges : List Edge) (s : String) (d : String → WithTop ℤ) : Prop :=
  ∀ v (c : ℤ), d v = (c : WithTop ℤ) → ∃ w, IsWalkFrom edges s v w ∧ weightSum w = c

/-- Every recorded predecessor is the tail of an edge that is currently
tight or relaxable into `v`. -/
def PredInv (edges : List Edge) (d : String → WithTop ℤ) (p : String → Option String) : Prop :=
  ∀ v u, p v = some u →
    ∃ e, e ∈ edges ∧ e.fromId = u ∧ e.toId = v ∧
      d e.fromId + (e.weight : WithTop ℤ) ≤ d v ∧ d v ≠ ⊤

/-- A node with no recorded predecessor is the source or still at the
infinity sentinel. -/
def PredNone (s : String) (d : String → WithTop ℤ) (p : String → Option String) : Prop :=
  ∀ v, p v = none → v = s ∨ d v = ⊤

/-- No edge can be relaxed. -/
def NoRelax (edges : List Edge) (d : String → WithTop ℤ) : Prop :=
  ∀ e ∈ edges, ¬ (d e.fromId + (e.weight : WithTop ℤ) < d e.toId)

/-- The tentative distances bound the weight of every walk of at most `k`
edges. -/
def DistBound (edges : List Edge) (s : String) (k : ℕ) (d : String → WithTop ℤ) : Prop :=
  ∀ v w, IsWalkFrom edges s v w → w.length ≤ k → d v ≤ (weightSum w : WithTop ℤ)

/-- The tentative distances bound the weight of every walk. -/
def DistBoundAll (edges : List Edge) (s : String) (d : String → WithTop ℤ) : Prop :=
  ∀ v w, IsWalkFrom edges s v w → d v ≤ (weightSum w : WithTop ℤ)

theorem relaxEdge_dist_le (st : BFState) (e : Edge) (v : String) :
    (relaxEdge st e).dist v ≤ st.dist v := by
  by_cases h : st.dist e.fromId + (e.weight : WithTop ℤ) < st.dist e.toId
  · simp only [relaxEdge, if_pos h]
    by_cases hv : v = e.toId
    · subst hv; simp only [if_pos rfl]; exact le_of_lt h
    · simp only [if_neg hv]; exact le_refl _
  · simp only [relaxEdge, if_neg h]; exact le_refl _

theorem relaxEdge_not_fired {st : BFState} {e : Edge}
    (h : ¬ (st.dist e.fromId + (e.weight : WithTop ℤ) < st.dist e.toId)) :
    relaxEdge st e = st := by
  simp only [relaxEdge, if_neg h]

theorem foldl_relax_dist_le (es' : List Edge) :
    ∀ (st : BFState) (v : String), (es'.foldl relaxEdge st).dist v ≤ st.dist v := by
  induction es' with
  | nil => intro st v; exact le_refl _
  | cons a l ih =>
    intro st v
    exact le_trans (ih (relaxEdge st a) v) (relaxEdge_dist_le st a v)

theorem relaxEdge_sound {edges : List Edge} {s : String} {st : BFState} {e : Edge}
    (he : e ∈ edges) (hs : Sound edges s st.dist) : Sound edges s (relaxEdge st e).dist := by
  by_cases h : st.dist e.fromId + (e.weight : WithTop ℤ) < st.dist e.toId
  · intro v c hv
    simp only [relaxEdge, if_pos h] at hv
    by_cases hveq : v = e.toId
    · rw [if_pos hveq] at hv
      rcases eq_or_ne (st.dist e.fromId) ⊤ with htop | hfin
      · rw [htop, top_add] at hv
        exact absurd hv.symm WithTop.coe_ne_top
      · obtain ⟨a, ha⟩ := WithTop.ne_top_iff_exists.mp hfin
        rw [← ha, ← WithTop.coe_add] at hv
        have hac : a + e.weight = c := WithTop.coe_inj.mp hv
        obtain ⟨w, hw, hws⟩ := hs e.fromId a ha.symm
        refine ⟨w ++ [e], ?_, ?_⟩
        · subst hveq
          exact isWalkFrom_append hw (isWalkFrom_cons.mpr ⟨he, rfl, rfl⟩)
        · rw [weightSum_append, hws, weightSum_cons, weightSum_nil]; omega
    · rw [if_neg hveq] at hv
      exact hs v c hv
  · rw [relaxEdge_not_fired h]
    exact hs

theorem foldl_relax_sound {edges : List Edge} {s : String} (es' : List Edge)
    (hsub : ∀ e ∈ es', e ∈ edges) :
    ∀ st : BFState, Sound edges s st.dist → Sound edges s (es'.foldl relaxEdge st).dist := by
  induction es' with
  | nil => intro st h; exact h
  | cons a l ih =>
    intro st h
    exact ih (fun e he => hsub e (List.mem_cons_of_mem a he)) (relaxEdge st a)
      (relaxEdge_sound (hsub a (List.mem_cons_self a l)) h)

theorem relaxEdge_predInv {edges : List Edge} {st : BFState} {e : Edge}
    (he : e ∈ edges) (hp : PredInv edges st.dist st.pred) :
    PredInv edges (relaxEdge st e).dist (relaxEdge st e).pred := by
  by_cases h : st.dist e.fromId + (e.weight : WithTop ℤ) < st.dist e.toId
  · intro v u hv
    simp only [relaxEdge, if_pos h] at hv ⊢
    by_cases hveq : v = e.toId
    · rw [if_pos hveq] at hv
      refine ⟨e, he, Option.some_inj.mp hv, hveq.symm, ?_, ?_⟩
      · rw [if_pos hveq]
        have h1 : (if e.fromId = e.toId then st.dist e.fromId + (e.weight : WithTop ℤ)
            else st.dist e.fromId) ≤ st.dist e.fromId := by
          split
          · next hfe => exact le_of_lt (by rw [← hfe] at h; exact h)
          · exact le_refl _
        exact add_le_add_right h1 _
      · rw [if_pos hveq]
        exact ne_top_of_lt h
    · rw [if_neg hveq] at hv
      obtain ⟨e', he', hf', ht', hle', hne'⟩ := hp v u hv
      refine ⟨e', he', hf', ht', ?_, ?_⟩
      · rw [if_neg hveq]
        have hd : (if e'.fromId = e.toId then st.dist e.fromId + (e.weight : WithTop ℤ)
            else st.dist e'.fromId) ≤ st.dist e'.fromId := by
          split
          · next hfe => exact le_of_lt (by rw [← hfe] at h; exact h)
          · exact le_refl _
        exact le_trans (add_le_add_right hd _) hle'
      · rw [if_neg hveq]
        exact hne'
  · rw [relaxEdge_not_fired h]
    exact hp

theorem foldl_relax_predInv {edges : List Edge} (es' : List Edge)
    (hsub : ∀ e ∈ es', e ∈ edges) :
    ∀ st : BFState, PredInv edges st.dist st.pred →
      PredInv edges (es'.foldl relaxEdge st).dist (es'.foldl relaxEdge st).pred := by
  induction es' with
  | nil => intro st h; exact h
  | cons a l ih =>
    intro st h
    exact ih (fun e he => hsub e (List.mem_cons_of_mem a he)) (relaxEdge st a)
      (relaxEdge_predInv (hsub a (List.mem_cons_self a l)) h)

theorem relaxEdge_predNone {s : String} {st : BFState} {e : Edge}
    (hp : PredNone s st.dist st.pred) :
    PredNone s (relaxEdge st e).dist (relaxEdge st e).pred := by
  by_cases h : st.dist e.fromId + (e.weight : WithTop ℤ) < st.dist e.toId
  · intro v hv
    simp only [relaxEdge, if_pos h] at hv ⊢
    by_cases hveq : v = e.toId
    · rw [if_pos hveq] at hv; cases hv
    · rw [if_neg hveq] at hv
      rw [if_neg hveq]
      exact hp v hv
  · rw [relaxEdge_not_fired h]
    exact hp

theorem foldl_relax_predNone {s : String} (es' : List Edge) :
    ∀ st : BFState, PredNone s st.dist st.pred →
      PredNone s (es'.foldl relaxEdge st).dist (es'.foldl relaxEdge st).pred := by
  induction es' with
  | nil => intro st h; exact h
  | cons a l ih =>
    intro st h
    exact ih (relaxEdge st a) (relaxEdge_predNone h)

/-- After a full pass over `es'`, every edge of `es'` satisfies the
relaxation inequality with respect to the distances at the start of the
pass. -/
theorem foldl_relax_edge_bound (es' : List Edge) :
    ∀ (st : BFState) (e : Edge), e ∈ es' →
      (es'.foldl relaxEdge st).dist e.toId ≤ st.dist e.fromId + (e.weight : WithTop ℤ) := by
  induction es' with
  | nil => intro st e he; cases he
  | cons a l ih =>
    intro st e he
    rcases List.mem_cons.mp he with rfl | hmem
    · have h1 : (relaxEdge st e).dist e.toId ≤ st.dist e.fromId + (e.weight : WithTop ℤ) := by
        by_cases h : st.dist e.fromId + (e.weight : WithTop ℤ) < st.dist e.toId
        · simp only [relaxEdge, if_pos h, if_pos rfl]; exact le_refl _
        · rw [relaxEdge_not_fired h]; exact not_lt.mp h
      exact le_trans (foldl_relax_dist_le l (relaxEdge st e) e.toId) h1
    · exact le_trans (ih (relaxEdge st a) e hmem)
        (add_le_add_right (relaxEdge_dist_le st a e.fromId) _)

theorem relaxEdge_changed_mono {st : BFState} (e : Edge) (h : st.changed = true) :
    (relaxEdge st e).changed = true := by
  by_cases hc : st.dist e.fromId + (e.weight : WithTop ℤ) < st.dist e.toId
  · simp only [relaxEdge, if_pos hc]
  · rw [relaxEdge_not_fired hc]; exact h

theorem foldl_relax_changed_mono (es' : List Edge) :
    ∀ st : BFState, st.changed = true → (es'.foldl relaxEdge st).changed = true := by
  induction es' with
  | nil => intro st h; exact h
  | cons a l ih =>
    intro st h
    exact ih (relaxEdge st a) (relaxEdge_changed_mono a h)

/-- If a pass reports no change, it changed nothing, and no edge it
touched is relaxable. -/
theorem foldl_relax_changed_false (es' : List Edge) :
    ∀ st : BFState, (es'.foldl relaxEdge st).changed = false →
      es'.foldl relaxEdge st = st ∧
      ∀ e ∈ es', ¬ (st.dist e.fromId + (e.weight : WithTop ℤ) < st.dist e.toId) := by
  induction es' with
  | nil => intro st _; exact ⟨rfl, fun e he => absurd he (List.not_mem_nil e)⟩
  | cons a l ih =>
    intro st h
    have hque : ¬ (st.dist a.fromId + (a.weight : WithTop ℤ) < st.dist a.toId) := by
      intro hc
      have h1 : (relaxEdge st a).changed = true := by
        simp only [relaxEdge, if_pos hc]
      have h2 := foldl_relax_changed_mono l (relaxEdge st a) h1
      rw [List.foldl_cons] at h
      rw [h] at h2
      cases h2
    have heq : relaxEdge st a = st := relaxEdge_not_fired hque
    rw [List.foldl_cons, heq] at h
    obtain ⟨hfold, hrest⟩ := ih st h
    refine ⟨?_, ?_⟩
    · rw [List.foldl_cons, heq, hfold]
    · intro e he
      rcases List.mem_cons.mp he with rfl | hmem
      · exact hque
      · exact hrest e hmem

/-- A pass improves the walk-length bound by one. -/
theorem relaxPass_bound {edges : List Edge} {s : String} {k : ℕ}
    {d : String → WithTop ℤ} {p : String → Option String}
    (hb : DistBound edges s k d) :
    DistBound edges s (k + 1) (relaxPass edges d p).dist := by
  intro v w hw hlen
  rcases List.eq_nil_or_concat w with rfl | ⟨w', e, rfl⟩
  · exact le_trans (foldl_relax_dist_le edges _ v) (hb v [] hw (Nat.zero_le k))
  · rw [List.concat_eq_append] at hw hlen ⊢
    obtain ⟨hw', he, hev⟩ := isWalkFrom_snoc.mp hw
    have hlen' : w'.length ≤ k := by
      rw [List.length_append, List.length_cons, List.length_nil] at hlen
      omega
    have h1 : (relaxPass edges d p).dist e.toId ≤ d e.fromId + (e.weight : WithTop ℤ) :=
      foldl_relax_edge_bound edges _ e he
    have h2 : d e.fromId ≤ (weightSum w' : WithTop ℤ) := hb e.fromId w' hw' hlen'
    subst hev
    calc (relaxPass edges d p).dist e.toId
        ≤ d e.fromId + (e.weight : WithTop ℤ) := h1
      _ ≤ (weightSum w' : WithTop ℤ) + (e.weight : WithTop ℤ) := add_le_add_right h2 _
      _ = (weightSum (w' ++ [e]) : WithTop ℤ) := by
          rw [← WithTop.coe_add, weightSum_append, weightSum_cons, weightSum_nil, add_zero]

/-- With no relaxable edge and a nonpositive source entry, the distances
bound every walk weight. -/
theorem noRelax_boundAll {edges : List Edge} {s : String} {d : String → WithTop ℤ}
    (h0 : d s ≤ ((0 : ℤ) : WithTop ℤ)) (hnr : NoRelax edges d) :
    DistBoundAll edges s d := by
  intro v w
  induction w using List.reverseRecOn generalizing v with
  | nil =>
    intro hw
    rw [isWalkFrom_nil] at hw
    subst hw
    simpa [weightSum_nil] using h0
  | append_singleton w' e ih =>
    intro hw
    obtain ⟨hw', he, hev⟩ := isWalkFrom_snoc.mp hw
    have h1 := ih e.fromId hw'
    have h3 : d e.toId ≤ d e.fromId + (e.weight : WithTop ℤ) := not_lt.mp (hnr e he)
    subst hev
    calc d e.toId ≤ d e.fromId + (e.weight : WithTop ℤ) := h3
      _ ≤ (weightSum w' : WithTop ℤ) + (e.weight : WithTop ℤ) := add_le_add_right h1 _
      _ = (weightSum (w' ++ [e]) : WithTop ℤ) := by
          rw [← WithTop.coe_add, weightSum_append, weightSum_cons, weightSum_nil, add_zero]

/-- The main loop preserves all invariants and ends either with the
walk-length bound improved once per executed pass, or with a fully relaxed
distance function (early exit). -/
theorem bfLoop_inv {edges : List Edge} {s : String} :
    ∀ (k : ℕ) (d : String → WithTop ℤ) (p : String → Option String) (m : ℕ),
      Sound edges s d → PredInv edges d p → PredNone s d p →
      d s ≤ ((0 : ℤ) : WithTop ℤ) → DistBound edges s m d →
      Sound edges s (bfLoop edges k d p).1 ∧
      PredInv edges (bfLoop edges k d p).1 (bfLoop edges k d p).2 ∧
      PredNone s (bfLoop edges k d p).1 (bfLoop edges k d p).2 ∧
      (bfLoop edges k d p).1 s ≤ ((0 : ℤ) : WithTop ℤ) ∧
      (DistBound edges s (m + k) (bfLoop edges k d p).1 ∨
        NoRelax edges (bfLoop edges k d p).1) := by
  intro k
  induction k with
  | zero =>
    intro d p m hs hpi hpn h0 hb
    exact ⟨hs, hpi, hpn, h0, Or.inl (by simpa using hb)⟩
  | succ k ih =>
    intro d p m hs hpi hpn h0 hb
    have hst : relaxPass edges d p =
        edges.foldl relaxEdge { dist := d, pred := p, changed := false } := rfl
    have sound1 : Sound edges s (relaxPass edges d p).dist := by
      rw [hst]; exact foldl_relax_sound edges (fun e he => he) _ hs
    have predInv1 : PredInv edges (relaxPass edges d p).dist (relaxPass edges d p).pred := by
      rw [hst]; exact foldl_relax_predInv edges (fun e he => he) _ hpi
    have predNone1 : PredNone s (relaxPass edges d p).dist (relaxPass edges d p).pred := by
      rw [hst]; exact foldl_relax_predNone edges _ hpn
    have h01 : (relaxPass edges d p).dist s ≤ ((0 : ℤ) : WithTop ℤ) := by
      rw [hst]; exact le_trans (foldl_relax_dist_le edges _ s) h0
    have hb1 : DistBound edges s (m + 1) (relaxPass edges d p).dist := relaxPass_bound hb
    by_cases hch : (relaxPass edges d p).changed = true
    · have hloop : bfLoop edges (k + 1) d p =
          bfLoop edges k (relaxPass edges d p).dist (relaxPass edges d p).pred := by
        simp only [bfLoop, if_pos hch]
      rw [hloop]
      obtain ⟨a1, a2, a3, a4, a5⟩ :=
        ih (relaxPass edges d p).dist (relaxPass edges d p).pred (m + 1)
          sound1 predInv1 predNone1 h01 hb1
      refine ⟨a1, a2, a3, a4, ?_⟩
      have harith : m + 1 + k = m + (k + 1) := by omega
      rw [harith] at a5
      exact a5
    · have hchf : (relaxPass edges d p).changed = false := by
        cases hcc : (relaxPass edges d p).changed
        · rfl
        · exact absurd hcc hch
      have hloop : bfLoop edges (k + 1) d p =
          ((relaxPass edges d p).dist, (relaxPass edges d p).pred) := by
        simp only [bfLoop, if_neg hch]
      obtain ⟨hfold, hnr⟩ := foldl_relax_changed_false edges _ (hst ▸ hchf)
      have hdd : (relaxPass edges d p).dist = d := by rw [hst, hfold]
      have hpp : (relaxPass edges d p).pred = p := by rw [hst, hfold]
      rw [hloop, hdd, hpp]
      exact ⟨hs, hpi, hpn, h0, Or.inr hnr⟩

/-- Bellman-Ford master correctness theorem.  The hypotheses are that edge
endpoints come from the node-id list (the data-model invariant of the
engine) and that some potential `φ` certifies all reduced edge weights
nonnegative (which rules out negative cycles).  The conclusions: the final
distances are realized by walks from the source and lower-bound every walk
weight, no edge remains relaxable, the negative-cycle flag is `false`, a
recorded predecessor is always the tail of a tight incoming edge, and a
missing predecessor means source-or-unreachable. -/
theorem bellmanFord_correct (nodes : List Node) (edges : List Edge) (s : String)
    (φ : String → ℚ)
    (hin : ∀ e ∈ edges, e.fromId ∈ nodes.map Node.id ∧ e.toId ∈ nodes.map Node.id)
    (hred : ∀ e ∈ edges, 0 ≤ (e.weight : ℚ) + φ e.fromId - φ e.toId) :
    Sound edges s (bellmanFord nodes edges s).distances ∧
    DistBoundAll edges s (bellmanFord nodes edges s).distances ∧
    NoRelax edges (bellmanFord nodes edges s).distances ∧
    (bellmanFord nodes edges s).hasNegativeCycle = false ∧
    (∀ v u, (bellmanFord nodes edges s).predecessors v = some u →
      ∃ e, e ∈ edges ∧ e.fromId = u ∧ e.toId = v ∧
        (bellmanFord nodes edges s).distances v =
          (bellmanFord nodes edges s).distances e.fromId + (e.weight : WithTop ℤ)) ∧
    (∀ v, (bellmanFord nodes edges s).predecessors v = none →
      v = s ∨ (bellmanFord nodes edges s).distances v = ⊤) := by
  have init_sound : Sound edges s
      (fun v => if v = s then ((0 : ℤ) : WithTop ℤ) else ⊤) := by
    intro v c hv
    have hv' : (if v = s then ((0 : ℤ) : WithTop ℤ) else ⊤) = ((c : ℤ) : WithTop ℤ) := hv
    by_cases hvs : v = s
    · rw [if_pos hvs] at hv'
      have hc : (0 : ℤ) = c := WithTop.coe_inj.mp hv'
      exact ⟨[], isWalkFrom_nil.mpr hvs.symm, by rw [weightSum_nil, hc]⟩
    · rw [if_neg hvs] at hv'
      exact absurd hv'.symm WithTop.coe_ne_top
  have init_predInv : PredInv edges
      (fun v => if v = s then ((0 : ℤ) : WithTop ℤ) else ⊤) (fun _ => none) := by
    intro v u hv
    cases hv
  have init_predNone : PredNone s
      (fun v => if v = s then ((0 : ℤ) : WithTop ℤ) else ⊤) (fun _ => none) := by
    intro v _
    by_cases hvs : v = s
    · exact Or.inl hvs
    · refine Or.inr ?_
      show (if v = s then ((0 : ℤ) : WithTop ℤ) else ⊤) = ⊤
      rw [if_neg hvs]
  have init_h0 : (fun v => if v = s then ((0 : ℤ) : WithTop ℤ) else ⊤) s
      ≤ ((0 : ℤ) : WithTop ℤ) := by simp
  have init_bound : DistBound edges s 0
      (fun v => if v = s then ((0 : ℤ) : WithTop ℤ) else ⊤) := by
    intro v w hw hlen
    rw [Nat.le_zero, List.length_eq_zero] at hlen
    subst hlen
    rw [isWalkFrom_nil] at hw
    subst hw
    simp [weightSum_nil]
  obtain ⟨hS, hPI, hPN, hH0, hHB⟩ :=
    @bfLoop_inv edges s (nodes.length - 1)
      (fun v => if v = s then ((0 : ℤ) : WithTop ℤ) else ⊤) (fun _ => none) 0
      init_sound init_predInv init_predNone init_h0 init_bound
  have hdist : (bellmanFord nodes edges s).distances =
      (bfLoop edges (nodes.length - 1)
        (fun v => if v = s then ((0 : ℤ) : WithTop ℤ) else ⊤) (fun _ => none)).1 := rfl
  have hpred : (bellmanFord nodes edges s).predecessors =
      (bfLoop edges (nodes.length - 1)
        (fun v => if v = s then ((0 : ℤ) : WithTop ℤ) else ⊤) (fun _ => none)).2 := rfl
  rw [hdist, hpred] at *
  have hBA : DistBoundAll edges s
      (bfLoop edges (nodes.length - 1)
        (fun v => if v = s then ((0 : ℤ) : WithTop ℤ) else ⊤) (fun _ => none)).1 := by
    rcases hHB with hb | hnr
    · intro v w hw
      obtain ⟨w', hw', hnd', hws', _⟩ := walk_shorten hred w.length w s v (le_refl _) hw
      have hlen' : w'.length ≤ nodes.length - 1 := by
        rcases eq_or_ne w' [] with rfl | hne
        · simp
        · have hvis := walk_visited_mem hin hw' hne
          have hlen2 := nodup_length_le hnd' hvis
          rw [List.length_cons, List.length_map] at hlen2
          rw [List.length_map] at hlen2
          omega
      have h1 := hb v w' hw' (by omega)
      exact le_trans h1 (WithTop.coe_le_coe.mpr hws')
    · exact noRelax_boundAll hH0 hnr
  have hNR : NoRelax edges
      (bfLoop edges (nodes.length - 1)
        (fun v => if v = s then ((0 : ℤ) : WithTop ℤ) else ⊤) (fun _ => none)).1 := by
    intro e he hc
    rcases eq_or_ne ((bfLoop edges (nodes.length - 1)
        (fun v => if v = s then ((0 : ℤ) : WithTop ℤ) else ⊤)
        (fun _ => none)).1 e.fromId) ⊤ with htop | hfin
    · rw [htop, top_add] at hc
      exact absurd hc not_top_lt
    · obtain ⟨a, ha⟩ := WithTop.ne_top_iff_exists.mp hfin
      obtain ⟨w, hw, hws⟩ := hS e.fromId a ha.symm
      have h2 := hBA e.toId (w ++ [e])
        (isWalkFrom_append hw (isWalkFrom_cons.mpr ⟨he, rfl, rfl⟩))
      rw [weightSum_append, hws, weightSum_cons, weightSum_nil, add_zero,
        WithTop.coe_add, ha] at h2
      exact absurd (lt_of_lt_of_le hc h2) (lt_irrefl _)
  refine ⟨hS, hBA, hNR, ?_, ?_, hPN⟩
  · have hflag : (bellmanFord nodes edges s).hasNegativeCycle =
        edges.any (fun e => decide ((bfLoop edges (nodes.length - 1)
          (fun v => if v = s then ((0 : ℤ) : WithTop ℤ) else ⊤)
          (fun _ => none)).1 e.fromId + (e.weight : WithTop ℤ) <
          (bfLoop edges (nodes.length - 1)
          (fun v => if v = s then ((0 : ℤ) : WithTop ℤ) else ⊤)
          (fun _ => none)).1 e.toId)) := rfl
    rw [hflag]
    simp only [List.any_eq_false, decide_eq_true_eq]
    exact fun e he => hNR e he
  · intro v u hv
    obtain ⟨e, he, hf, ht, hle, _⟩ := hPI v u hv
    refine ⟨e, he, hf, ht, ?_⟩
    have h1 : ¬ ((bfLoop edges (nodes.length - 1)
        (fun v => if v = s then ((0 : ℤ) : WithTop ℤ) else ⊤)
        (fun _ => none)).1 e.fromId + (e.weight : WithTop ℤ) <
        (bfLoop edges (nodes.length - 1)
        (fun v => if v = s then ((0 : ℤ) : WithTop ℤ) else ⊤)
        (fun _ => none)).1 e.toId) := hNR e he
    rw [ht] at h1
    exact le_antisymm (not_lt.mp h1) hle

/-! ## Structure of generated graphs -/

/-- The node ids of the grid, in generation order. -/
def gridIds : List String :=
  (List.range GRID_SIZE).flatMap (fun y => (List.range GRID_SIZE).map (fun x => mkId x y))

set_option maxHeartbeats 1000000 in
theorem gridIds_nodup : gridIds.Nodup := by decide

theorem gridNodes_map_id (S : List String) : (gridNodes S).map Node.id = gridIds := rfl

theorem mkId_mem_gridIds {x y : ℕ} (hx : x < GRID_SIZE) (hy : y < GRID_SIZE) :
    mkId x y ∈ gridIds := by
  simp only [gridIds, List.mem_flatMap, List.mem_range, List.mem_map]
  exact ⟨y, hy, x, hx, rfl⟩

theorem gridNode_mem {S : List String} {x y : ℕ} (hx : x < GRID_SIZE) (hy : y < GRID_SIZE) :
    ({ id := mkId x y, x := MARGIN + (x : ℚ) * NODE_SPACING,
       y := MARGIN + (y : ℚ) * NODE_SPACING,
       isPath := S.contains (mkId x y) } : Node) ∈ gridNodes S := by
  simp only [gridNodes, List.mem_flatMap, List.mem_range, List.mem_map]
  exact ⟨y, hy, x, hx, rfl⟩

theorem mem_gridNodes {S : List String} {n : Node} (hn : n ∈ gridNodes S) :
    ∃ x y : ℕ, x < GRID_SIZE ∧ y < GRID_SIZE ∧
      n = { id := mkId x y, x := MARGIN + (x : ℚ) * NODE_SPACING,
            y := MARGIN + (y : ℚ) * NODE_SPACING, isPath := S.contains (mkId x y) } := by
  simp only [gridNodes, List.mem_flatMap, List.mem_range, List.mem_map] at hn
  obtain ⟨y, hy, x, hx, hxy⟩ := hn
  exact ⟨x, y, hx, hy, hxy.symm⟩

/-- In a list of nodes with duplicate-free ids, `find?` on a member's id
returns that member. -/
theorem find_id_eq {l : List Node} (hnd : (l.map Node.id).Nodup) {n : Node} (hn : n ∈ l) :
    l.find? (fun m => m.id == n.id) = some n := by
  induction l with
  | nil => cases hn
  | cons a t ih =>
    rw [List.map_cons, List.nodup_cons] at hnd
    rcases List.mem_cons.mp hn with rfl | hmem
    · have hpos : (n.id == n.id) = true := by simp
      simp only [List.find?, hpos]
    · have hne : (a.id == n.id) = false := by
        rw [Bool.eq_false_iff]
        intro hcon
        have hid : a.id = n.id := by simpa using hcon
        exact hnd.1 (hid ▸ List.mem_map.mpr ⟨n, hmem, rfl⟩)
      simp only [List.find?, hne]
      exact ih hnd.2 hmem

/-- A potential certifying that the generated graphs have no negative
cycle: `-5` per unit of grid progress, expressed through coordinate lookup
in the node list. -/
def phiGrid (nodes : List Node) : String → ℚ := fun idStr =>
  match nodes.find? (fun m => m.id == idStr) with
  | some n => -(n.x + n.y) / 12
  | none => 0

theorem phiGrid_of_mem {l : List Node} (hnd : (l.map Node.id).Nodup) {n : Node}
    (hn : n ∈ l) : phiGrid l n.id = -(n.x + n.y) / 12 := by
  unfold phiGrid
  rw [find_id_eq hnd hn]

theorem phiGrid_mkId {S : List String} {x y : ℕ} (hx : x < GRID_SIZE) (hy : y < GRID_SIZE) :
    phiGrid (gridNodes S) (mkId x y) =
      -((MARGIN + (x : ℚ) * NODE_SPACING) + (MARGIN + (y : ℚ) * NODE_SPACING)) / 12 := by
  have hnd : ((gridNodes S).map Node.id).Nodup := by
    rw [gridNodes_map_id]; exact gridIds_nodup
  exact phiGrid_of_mem hnd (gridNode_mem hx hy (S := S))

theorem ridx_lt {q : ℚ} (_h0 : 0 ≤ q) (h1 : q < 1) {len : ℕ} (hlen : 0 < len) :
    ridx q len < len := by
  unfold ridx
  have hlq : (0 : ℚ) < (len : ℚ) := by exact_mod_cast hlen
  have h2 : q * (len : ℚ) < (len : ℚ) := by nlinarith
  have h3 : ⌊q * (len : ℚ)⌋ < (len : ℤ) := Int.floor_lt.mpr (by exact_mod_cast h2)
  omega

theorem getD_mem {α : Type _} {l : List α} {i : ℕ} (h : i < l.length) (d : α) :
    l.getD i d ∈ l := by
  rw [List.getD_eq_getElem?_getD, List.getElem?_eq_getElem h]
  exact List.getElem_mem h

/-- Forward characterization of the adjacency edges: each is a weight-10
edge between grid-adjacent cells, so its grid-progress delta is `±1`. -/
theorem mem_adjEdges {S : List String} {e : Edge} (he : e ∈ adjEdges S) :
    ∃ a b c d : ℕ, a < GRID_SIZE ∧ b < GRID_SIZE ∧ c < GRID_SIZE ∧ d < GRID_SIZE ∧
      e.fromId = mkId a b ∧ e.toId = mkId c d ∧ e.weight = 10 ∧
      (c + d = a + b + 1 ∨ c + d + 1 = a + b) := by
  simp only [adjEdges, List.mem_flatMap, List.mem_range, List.mem_cons,
    List.not_mem_nil, or_false] at he
  obtain ⟨y, hy, x, hx, nb, hnb, hmem⟩ := he
  rcases hnb with rfl | rfl
  · split at hmem
    · next hlt =>
      split at hmem
      · next _ =>
        rcases List.mem_cons.mp hmem with rfl | hmem2
        · exact ⟨x, y, x + 1, y, hx, hy, hlt.1, hlt.2, rfl, rfl, rfl, Or.inl (by omega)⟩
        · rcases List.mem_cons.mp hmem2 with rfl | hmem3
          · exact ⟨x + 1, y, x, y, hlt.1, hlt.2, hx, hy, rfl, rfl, rfl, Or.inr (by omega)⟩
          · cases hmem3
      · cases hmem
    · cases hmem
  · split at hmem
    · next hlt =>
      split at hmem
      · next _ =>
        rcases List.mem_cons.mp hmem with rfl | hmem2
        · exact ⟨x, y, x, y + 1, hx, hy, hlt.1, hlt.2, rfl, rfl, rfl, Or.inl (by omega)⟩
        · rcases List.mem_cons.mp hmem2 with rfl | hmem3
          · exact ⟨x, y + 1, x, y, hlt.1, hlt.2, hx, hy, rfl, rfl, rfl, Or.inr (by omega)⟩
          · cases hmem3
      · cases hmem
    · cases hmem

/-- Backward membership: a rightward adjacency edge between two collected
walkable cells is generated. -/
theorem adjEdge_mem_right {S : List String} {x y : ℕ}
    (hx : x + 1 < GRID_SIZE) (hy : y < GRID_SIZE)
    (h1 : S.contains (mkId x y) = true) (h2 : S.contains (mkId (x + 1) y) = true) :
    ({ fromId := mkId x y, toId := mkId (x + 1) y, weight := 10, isWarp := false } : Edge)
      ∈ adjEdges S := by
  simp only [adjEdges, List.mem_flatMap, List.mem_range]
  refine ⟨y, hy, x, by omega, (x + 1, y), by simp, ?_⟩
  rw [if_pos ⟨hx, hy⟩, if_pos ⟨h1, h2⟩]
  simp

/-- Backward membership: a downward adjacency edge between two collected
walkable cells is generated. -/
theorem adjEdge_mem_down {S : List String} {x y : ℕ}
    (hx : x < GRID_SIZE) (hy : y + 1 < GRID_SIZE)
    (h1 : S.contains (mkId x y) = true) (h2 : S.contains (mkId x (y + 1)) = true) :
    ({ fromId := mkId x y, toId := mkId x (y + 1), weight := 10, isWarp := false } : Edge)
      ∈ adjEdges S := by
  simp only [adjEdges, List.mem_flatMap, List.mem_range]
  refine ⟨y, by omega, x, hx, (x, y + 1), by simp, ?_⟩
  rw [if_pos ⟨hx, hy⟩, if_pos ⟨h1, h2⟩]
  simp

/-- Forward characterization of the warp edge: weight `-15` from one grid
cell to another at least 3 units of progress further (the `> 2` guard on
integral grid coordinates). -/
theorem mem_warpEdges {stage : ℤ} {r : ℕ → ℚ} {i : ℕ} {S : List String} {e : Edge}
    (hr : ∀ n, 0 ≤ r n ∧ r n < 1)
    (he : e ∈ warpEdges stage r i (gridNodes S)) :
    ∃ a b c d : ℕ, a < GRID_SIZE ∧ b < GRID_SIZE ∧ c < GRID_SIZE ∧ d < GRID_SIZE ∧
      e.fromId = mkId a b ∧ e.toId = mkId c d ∧ e.weight = -15 ∧ a + b + 3 ≤ c + d := by
  simp only [warpEdges] at he
  split at he
  case isFalse => cases he
  split at he
  case isFalse => cases he
  split at he
  case isFalse => cases he
  split at he
  case isFalse => cases he
  case isTrue hst hlen hcand hguard =>
    rw [List.mem_singleton] at he
    obtain ⟨hflen, htlen⟩ := hcand
    have hf0 := (hr i).1
    have hf1 := (hr i).2
    have ht0 := (hr (i + 1)).1
    have ht1 := (hr (i + 1)).2
    set pN := (gridNodes S).filter (fun n => n.isPath) with hpN
    set candF := pN.filter (fun n =>
      decide ((n.x - MARGIN) / NODE_SPACING + (n.y - MARGIN) / NODE_SPACING
        < (GRID_SIZE : ℚ) * (2/5))) with hcandF
    set candT := pN.filter (fun n =>
      decide (((GRID_SIZE : ℚ) - 1 - (n.x - MARGIN) / NODE_SPACING)
        + ((GRID_SIZE : ℚ) - 1 - (n.y - MARGIN) / NODE_SPACING) ≥ 8)) with hcandT
    have hfmem : candF.getD (ridx (r i) candF.length) defaultNode ∈ candF :=
      getD_mem (ridx_lt hf0 hf1 hflen) defaultNode
    have htmem : candT.getD (ridx (r (i + 1)) candT.length) defaultNode ∈ candT :=
      getD_mem (ridx_lt ht0 ht1 htlen) defaultNode
    have hfgrid : candF.getD (ridx (r i) candF.length) defaultNode ∈ gridNodes S :=
      (List.mem_filter.mp ((List.mem_filter.mp hfmem).1)).1
    have htgrid : candT.getD (ridx (r (i + 1)) candT.length) defaultNode ∈ gridNodes S :=
      (List.mem_filter.mp ((List.mem_filter.mp htmem).1)).1
    obtain ⟨a, b, ha, hb, hfnode⟩ := mem_gridNodes hfgrid
    obtain ⟨c, d, hc, hd, htnode⟩ := mem_gridNodes htgrid
    obtain ⟨-, hdist, -⟩ := hguard
    rw [hfnode, htnode] at hdist
    simp only [MARGIN, NODE_SPACING, GRID_SIZE] at hdist
    have hq : ((a : ℚ) + b) + 2 < (c : ℚ) + d := by
      have h1 : ((40 : ℚ) + (c : ℚ) * 60 - 40) / 60 = (c : ℚ) := by ring
      have h2 : ((40 : ℚ) + (d : ℚ) * 60 - 40) / 60 = (d : ℚ) := by ring
      have h3 : ((40 : ℚ) + (a : ℚ) * 60 - 40) / 60 = (a : ℚ) := by ring
      have h4 : ((40 : ℚ) + (b : ℚ) * 60 - 40) / 60 = (b : ℚ) := by ring
      rw [h1, h2, h3, h4] at hdist
      linarith
    have hnat : a + b + 3 ≤ c + d := by
      have : ((a + b + 2 : ℕ) : ℚ) < ((c + d : ℕ) : ℚ) := by push_cast; linarith
      have := Nat.cast_lt.mp this
      omega
    subst he
    exact ⟨a, b, c, d, ha, hb, hc, hd, by rw [hfnode], by rw [htnode], rfl, hnat⟩

/-- The path-id set accumulated by `generateGraph` before edges are
generated. -/
def genPathIds (stage : ℤ) (r : ℕ → ℚ) : List String :=
  (carveLoop r (min stage 3).toNat 0).1 ++
    (extraLoop r (10 + stage * 5).toNat (carveLoop r (min stage 3).toNat 0).2).1

/-- The random-stream index at which warp selection starts. -/
def genWarpIdx (stage : ℤ) (r : ℕ → ℚ) : ℕ :=
  (extraLoop r (10 + stage * 5).toNat (carveLoop r (min stage 3).toNat 0).2).2

theorem generateGraph_nodes_eq (stage : ℤ) (r : ℕ → ℚ) :
    (generateGraph stage r).nodes = gridNodes (genPathIds stage r) := rfl

theorem generateGraph_edges_eq (stage : ℤ) (r : ℕ → ℚ) :
    (generateGraph stage r).edges =
      adjEdges (genPathIds stage r) ++
        warpEdges stage r (genWarpIdx stage r) (gridNodes (genPathIds stage r)) := rfl

theorem generateGraph_start_eq (stage : ℤ) (r : ℕ → ℚ) :
    (generateGraph stage r).startNodeId = mkId 0 0 := rfl

theorem generateGraph_end_eq (stage : ℤ) (r : ℕ → ℚ) :
    (generateGraph stage r).endNodeId = mkId (GRID_SIZE - 1) (GRID_SIZE - 1) := rfl

/-- Every edge of a generated graph has endpoints among the grid node ids,
and nonnegative reduced weight for the grid potential: the adjacency edges
cost 10 for one unit of progress either way, and the warp edge's `-15` is
offset by at least 3 units of forward progress. -/
theorem generateGraph_edge_props {stage : ℤ} {r : ℕ → ℚ}
    (hr : ∀ n, 0 ≤ r n ∧ r n < 1) {e : Edge} (he : e ∈ (generateGraph stage r).edges) :
    (e.fromId ∈ (generateGraph stage r).nodes.map Node.id ∧
      e.toId ∈ (generateGraph stage r).nodes.map Node.id) ∧
    0 ≤ (e.weight : ℚ) + phiGrid (generateGraph stage r).nodes e.fromId
      - phiGrid (generateGraph stage r).nodes e.toId := by
  rw [generateGraph_edges_eq] at he
  rw [generateGraph_nodes_eq, gridNodes_map_id]
  rcases List.mem_append.mp he with hadj | hwarp
  · obtain ⟨a, b, c, d, ha, hb, hc, hd, hef, het, hw, hrel⟩ := mem_adjEdges hadj
    refine ⟨⟨hef ▸ mkId_mem_gridIds ha hb, het ▸ mkId_mem_gridIds hc hd⟩, ?_⟩
    rw [hef, het, hw, phiGrid_mkId ha hb, phiGrid_mkId hc hd]
    simp only [MARGIN, NODE_SPACING]
    rcases hrel with hrel | hrel
    · have hq : (c : ℚ) + d = (a : ℚ) + b + 1 := by exact_mod_cast hrel
      push_cast
      linarith
    · have hq : (c : ℚ) + d + 1 = (a : ℚ) + b := by exact_mod_cast hrel
      push_cast
      linarith
  · obtain ⟨a, b, c, d, ha, hb, hc, hd, hef, het, hw, hrel⟩ := mem_warpEdges hr hwarp
    refine ⟨⟨hef ▸ mkId_mem_gridIds ha hb, het ▸ mkId_mem_gridIds hc hd⟩, ?_⟩
    rw [hef, het, hw, phiGrid_mkId ha hb, phiGrid_mkId hc hd]
    simp only [MARGIN, NODE_SPACING]
    have hq : (a : ℚ) + b + 3 ≤ (c : ℚ) + d := by exact_mod_cast hrel
    push_cast
    linarith

/-- C1: for every stage ≥ 1 and every in-range random stream, the graph
returned by `generateGraph` admits no negative cycle (adjacency edges cost
10, the at-most-one warp edge costs -15 but must advance grid progress by
at least 3), so `bellmanFord` reports `hasNegativeCycle = false` on it for
every source. -/
theorem generateGraph_no_negative_cycle (stage : ℤ) (r : ℕ → ℚ)
    (_hst : 1 ≤ stage) (hr : ∀ n, 0 ≤ r n ∧ r n < 1) (sourceId : String) :
    (bellmanFord (generateGraph stage r).nodes (generateGraph stage r).edges
      sourceId).hasNegativeCycle = false := by
  obtain ⟨-, -, -, hflag, -, -⟩ :=
    bellmanFord_correct (generateGraph stage r).nodes (generateGraph stage r).edges
      sourceId (phiGrid (generateGraph stage r).nodes)
      (fun e he => (generateGraph_edge_props hr he).1)
      (fun e he => (generateGraph_edge_props hr he).2)
  exact hflag

/-- Witness for C1: stage 1, the all-zeros random stream, source
`node_0_0`. -/
theorem generateGraph_no_negative_cycle_witness :
    (bellmanFord (generateGraph 1 (fun _ => 0)).nodes (generateGraph 1 (fun _ => 0)).edges
      "node_0_0").hasNegativeCycle = false :=
  generateGraph_no_negative_cycle 1 (fun _ => 0) (by norm_num)
    (fun _ => ⟨le_refl 0, by norm_num⟩) "node_0_0"

/-- The random walk of `createPath` yields a corridor: from any cell it
reaches the far corner through cells it records, and all the adjacency
edges along it exist once those cells are collected in the path-id set. -/
theorem carve_walk (r : ℕ → ℚ) :
    ∀ (fuel x y i : ℕ), (GRID_SIZE - 1 - x) + (GRID_SIZE - 1 - y) ≤ fuel →
      x ≤ GRID_SIZE - 1 → y ≤ GRID_SIZE - 1 →
      ∀ S : List String, mkId x y ∈ S →
        (∀ id ∈ (carve r fuel x y i).1, id ∈ S) →
        ∃ w, IsWalkFrom (adjEdges S) (mkId x y) (mkId (GRID_SIZE - 1) (GRID_SIZE - 1)) w ∧
          ∀ e ∈ w, e.weight = 10 := by
  intro fuel
  induction fuel with
  | zero =>
    intro x y i hfuel hx hy S _ _
    have hxy : x = GRID_SIZE - 1 ∧ y = GRID_SIZE - 1 := by
      simp only [GRID_SIZE] at hfuel hx hy ⊢
      omega
    refine ⟨[], ?_, by simp⟩
    rw [isWalkFrom_nil, hxy.1, hxy.2]
  | succ fuel ih =>
    intro x y i hfuel hx hy S hxy hsub
    by_cases hg : x < GRID_SIZE - 1 ∨ y < GRID_SIZE - 1
    · by_cases hb1 : x < GRID_SIZE - 1 ∧ y = GRID_SIZE - 1
      · have hcarve : carve r (fuel + 1) x y i =
            (mkId (x + 1) y :: (carve r fuel (x + 1) y i).1, (carve r fuel (x + 1) y i).2) := by
          simp [carve, hg, hb1]
        rw [hcarve] at hsub
        have hhead : mkId (x + 1) y ∈ S := hsub _ (List.mem_cons_self _ _)
        have htail : ∀ id ∈ (carve r fuel (x + 1) y i).1, id ∈ S :=
          fun id hid => hsub id (List.mem_cons_of_mem _ hid)
        obtain ⟨w, hw, hwt⟩ := ih (x + 1) y i
          (by simp only [GRID_SIZE] at hfuel hb1 ⊢; omega)
          (by simp only [GRID_SIZE] at hb1 ⊢; omega) hy S hhead htail
        refine ⟨{ fromId := mkId x y, toId := mkId (x + 1) y, weight := 10, isWarp := false } :: w, isWalkFrom_cons.mpr ⟨?_, rfl, hw⟩, ?_⟩
        · exact adjEdge_mem_right (by simp only [GRID_SIZE] at hb1 ⊢; omega)
            (by simp only [GRID_SIZE] at hy ⊢; omega)
            (List.elem_eq_true_of_mem hxy) (List.elem_eq_true_of_mem hhead)
        · intro e he
          rcases List.mem_cons.mp he with rfl | hmem
          · rfl
          · exact hwt e hmem
      · by_cases hx2 : x < GRID_SIZE - 1
        · have hyne : ¬ y = GRID_SIZE - 1 := fun hc => hb1 ⟨hx2, hc⟩
          by_cases hrand : r i > 1/2
          · have hrand2 : ((2 : ℚ))⁻¹ < r i := by
              rw [show ((2 : ℚ))⁻¹ = 1/2 by norm_num]
              exact hrand
            have hcarve : carve r (fuel + 1) x y i =
                (mkId (x + 1) y :: (carve r fuel (x + 1) y (i + 1)).1,
                  (carve r fuel (x + 1) y (i + 1)).2) := by
              simp [carve, hg, hyne, hx2, hrand2]
            rw [hcarve] at hsub
            have hhead : mkId (x + 1) y ∈ S := hsub _ (List.mem_cons_self _ _)
            have htail : ∀ id ∈ (carve r fuel (x + 1) y (i + 1)).1, id ∈ S :=
              fun id hid => hsub id (List.mem_cons_of_mem _ hid)
            obtain ⟨w, hw, hwt⟩ := ih (x + 1) y (i + 1)
              (by simp only [GRID_SIZE] at hfuel hx2 ⊢; omega)
              (by simp only [GRID_SIZE] at hx2 ⊢; omega) hy S hhead htail
            refine ⟨{ fromId := mkId x y, toId := mkId (x + 1) y, weight := 10, isWarp := false } :: w, isWalkFrom_cons.mpr ⟨?_, rfl, hw⟩, ?_⟩
            · exact adjEdge_mem_right (by simp only [GRID_SIZE] at hx2 ⊢; omega)
                (by simp only [GRID_SIZE] at hy ⊢; omega)
                (List.elem_eq_true_of_mem hxy) (List.elem_eq_true_of_mem hhead)
            · intro e he
              rcases List.mem_cons.mp he with rfl | hmem
              · rfl
              · exact hwt e hmem
          · have hrand2 : ¬ ((2 : ℚ))⁻¹ < r i := by
              rw [show ((2 : ℚ))⁻¹ = 1/2 by norm_num]
              exact hrand
            have hy2 : y < GRID_SIZE - 1 := by
              rcases Nat.lt_or_ge y (GRID_SIZE - 1) with h | h
              · exact h
              · exact absurd (le_antisymm hy h) hyne
            have hcarve : carve r (fuel + 1) x y i =
                (mkId x (y + 1) :: (carve r fuel x (y + 1) (i + 1)).1,
                  (carve r fuel x (y + 1) (i + 1)).2) := by
              simp [carve, hg, hyne, hx2, hrand2, hy2]
            rw [hcarve] at hsub
            have hhead : mkId x (y + 1) ∈ S := hsub _ (List.mem_cons_self _ _)
            have htail : ∀ id ∈ (carve r fuel x (y + 1) (i + 1)).1, id ∈ S :=
              fun id hid => hsub id (List.mem_cons_of_mem _ hid)
            obtain ⟨w, hw, hwt⟩ := ih x (y + 1) (i + 1)
              (by simp only [GRID_SIZE] at hfuel hy2 ⊢; omega) hx
              (by simp only [GRID_SIZE] at hy2 ⊢; omega) S hhead htail
            refine ⟨{ fromId := mkId x y, toId := mkId x (y + 1), weight := 10, isWarp := false } :: w, isWalkFrom_cons.mpr ⟨?_, rfl, hw⟩, ?_⟩
            · exact adjEdge_mem_down (by simp only [GRID_SIZE] at hx ⊢; omega)
                (by simp only [GRID_SIZE] at hy2 ⊢; omega)
                (List.elem_eq_true_of_mem hxy) (List.elem_eq_true_of_mem hhead)
            · intro e he
              rcases List.mem_cons.mp he with rfl | hmem
              · rfl
              · exact hwt e hmem
        · have hy2 : y < GRID_SIZE - 1 := by
            rcases hg with h | h
            · exact absurd h hx2
            · exact h
          have hcarve : carve r (fuel + 1) x y i =
              (mkId x (y + 1) :: (carve r fuel x (y + 1) i).1,
                (carve r fuel x (y + 1) i).2) := by
            simp [carve, hg, hb1, hx2, hy2]
          rw [hcarve] at hsub
          have hhead : mkId x (y + 1) ∈ S := hsub _ (List.mem_cons_self _ _)
          have htail : ∀ id ∈ (carve r fuel x (y + 1) i).1, id ∈ S :=
            fun id hid => hsub id (List.mem_cons_of_mem _ hid)
          obtain ⟨w, hw, hwt⟩ := ih x (y + 1) i
            (by simp only [GRID_SIZE] at hfuel hy2 ⊢; omega) hx
            (by simp only [GRID_SIZE] at hy2 ⊢; omega) S hhead htail
          refine ⟨{ fromId := mkId x y, toId := mkId x (y + 1), weight := 10, isWarp := false } :: w, isWalkFrom_cons.mpr ⟨?_, rfl, hw⟩, ?_⟩
          · exact adjEdge_mem_down (by simp only [GRID_SIZE] at hx ⊢; omega)
              (by simp only [GRID_SIZE] at hy2 ⊢; omega)
              (List.elem_eq_true_of_mem hxy) (List.elem_eq_true_of_mem hhead)
          · intro e he
            rcases List.mem_cons.mp he with rfl | hmem
            · rfl
            · exact hwt e hmem
    · have hxy2 : x = GRID_SIZE - 1 ∧ y = GRID_SIZE - 1 := by
        simp only [GRID_SIZE] at hg hx hy ⊢
        omega
      refine ⟨[], ?_, by simp⟩
      rw [isWalkFrom_nil, hxy2.1, hxy2.2]

/-- A full `createPath` run yields a nonnegative-weight corridor from
`node_0_0` to the far corner through any superset of its recorded ids. -/
theorem createPath_walk (r : ℕ → ℚ) (i : ℕ) (S : List String)
    (hsub : ∀ id ∈ (createPath r i).1, id ∈ S) :
    ∃ w, IsWalkFrom (adjEdges S) (mkId 0 0) (mkId (GRID_SIZE - 1) (GRID_SIZE - 1)) w ∧
      ∀ e ∈ w, e.weight = 10 := by
  have hzero : mkId 0 0 ∈ S := hsub _ (List.mem_cons_self _ _)
  have htail : ∀ id ∈ (carve r (2 * (GRID_SIZE - 1)) 0 0 i).1, id ∈ S :=
    fun id hid => hsub id (List.mem_cons_of_mem _ hid)
  exact carve_walk r (2 * (GRID_SIZE - 1)) 0 0 i (by omega) (by omega) (by omega)
    S hzero htail

/-- The first carved corridor's ids are all in the final path-id set. -/
theorem createPath_subset_genPathIds {stage : ℤ} {r : ℕ → ℚ} (hst : 1 ≤ stage) :
    ∀ id ∈ (createPath r 0).1, id ∈ genPathIds stage r := by
  intro id hid
  have h1 : (1 : ℤ) ≤ min stage 3 := le_min hst (by norm_num)
  have h2 : 1 ≤ (min stage 3).toNat := by omega
  have h3 : (min stage 3).toNat = ((min stage 3).toNat - 1) + 1 := by omega
  unfold genPathIds
  apply List.mem_append_left
  rw [h3]
  simp only [carveLoop]
  exact List.mem_append_left _ hid

/-- C3: for every stage ≥ 1, the generated graph contains a walk from the
start node to the goal node using only nonnegative-weight edges (the
weight-10 adjacency edges along the carved corridor). -/
theorem generateGraph_corridor (stage : ℤ) (r : ℕ → ℚ) (hst : 1 ≤ stage) :
    ∃ w, IsWalkFrom (generateGraph stage r).edges (generateGraph stage r).startNodeId
        (generateGraph stage r).endNodeId w ∧ ∀ e ∈ w, 0 ≤ e.weight := by
  rw [generateGraph_edges_eq, generateGraph_start_eq, generateGraph_end_eq]
  obtain ⟨w, hw, hwt⟩ :=
    createPath_walk r 0 (genPathIds stage r) (createPath_subset_genPathIds hst)
  refine ⟨w, isWalkFrom_sub (fun e he => List.mem_append_left _ he) hw, ?_⟩
  intro e he
  rw [hwt e he]
  norm_num

/-- Witness for C3: stage 1 with the all-zeros random stream. -/
theorem generateGraph_corridor_witness :
    ∃ w, IsWalkFrom (generateGraph 1 (fun _ => 0)).edges
        (generateGraph 1 (fun _ => 0)).startNodeId
        (generateGraph 1 (fun _ => 0)).endNodeId w ∧ ∀ e ∈ w, 0 ≤ e.weight :=
  generateGraph_corridor 1 (fun _ => 0) (by norm_num)

/-! ## Per-phase lemmas about the tick -/

theorem updateFirst_pred {α : Type _} (p : α → Bool) (f : α → α) (P : α → Prop)
    (hf : ∀ x, P x → P (f x)) :
    ∀ l : List α, (∀ x ∈ l, P x) → ∀ x ∈ updateFirst p f l, P x := by
  intro l
  induction l with
  | nil => intro _ x hx; cases hx
  | cons a t ih =>
    intro hl x hx
    simp only [updateFirst] at hx
    split at hx
    · rcases List.mem_cons.mp hx with rfl | hmem
      · exact hf a (hl a (List.mem_cons_self a t))
      · exact hl x (List.mem_cons_of_mem a hmem)
    · rcases List.mem_cons.mp hx with rfl | hmem
      · exact hl x (List.mem_cons_self x t)
      · exact ih (fun y hy => hl y (List.mem_cons_of_mem a hy)) x hmem

/-- Area damage only ever adds nonnegative rewards to money, and leaves
every survivor's reward nonnegative. -/
theorem applyAoe_props (sqrtQ : ℚ → ℚ) (px py : ℚ) (damage : ℤ) (aoe : ℚ) :
    ∀ (es : List Enemy) (money : ℤ), (∀ e ∈ es, 0 ≤ e.reward) →
      money ≤ (applyAoe sqrtQ px py damage aoe es money).2 ∧
      ∀ e ∈ (applyAoe sqrtQ px py damage aoe es money).1, 0 ≤ e.reward := by
  intro es
  induction es with
  | nil =>
    intro money _
    exact ⟨le_refl _, fun e he => absurd he (List.not_mem_nil e)⟩
  | cons a t ih =>
    intro money h
    have ha := h a (List.mem_cons_self a t)
    have ht := fun e he => h e (List.mem_cons_of_mem a he)
    simp only [applyAoe]
    split
    · split
      · next hcross =>
        obtain ⟨hm, hr⟩ := ih (money + a.reward) ht
        refine ⟨le_trans (le_add_of_nonneg_right ha) hm, ?_⟩
        intro e he
        rcases List.mem_cons.mp he with rfl | hmem
        · exact ha
        · exact hr e hmem
      · obtain ⟨hm, hr⟩ := ih money ht
        refine ⟨hm, ?_⟩
        intro e he
        rcases List.mem_cons.mp he with rfl | hmem
        · exact ha
        · exact hr e hmem
    · obtain ⟨hm, hr⟩ := ih money ht
      refine ⟨hm, ?_⟩
      intro e he
      rcases List.mem_cons.mp he with rfl | hmem
      · exact ha
      · exact hr e hmem

/-- One projectile step never decreases money (given nonnegative rewards)
and preserves reward nonnegativity. -/
theorem stepProjectile_props (sqrtQ : ℚ → ℚ) (dt : ℚ) (acc : ProjAcc) (p : Projectile)
    (h : ∀ e ∈ acc.enemies, 0 ≤ e.reward) :
    acc.money ≤ (stepProjectile sqrtQ dt acc p).money ∧
    ∀ e ∈ (stepProjectile sqrtQ dt acc p).enemies, 0 ≤ e.reward := by
  rcases hf : acc.enemies.find? (fun e => e.id == p.targetId) with - | target
  · simp only [stepProjectile, hf]
    exact ⟨le_refl _, h⟩
  · have htmem : target ∈ acc.enemies := List.mem_of_find?_eq_some hf
    have htr : 0 ≤ target.reward := h target htmem
    simp only [stepProjectile, hf]
    split
    · split
      · obtain ⟨hm, hr⟩ := applyAoe_props sqrtQ p.x p.y p.damage (p.aoe.getD 0)
          acc.enemies acc.money h
        exact ⟨hm, hr⟩
      · constructor
        · split
          · exact le_add_of_nonneg_right htr
          · exact le_refl _
        · exact updateFirst_pred (fun e => e.id == p.targetId)
            (fun e => { e with hp := e.hp - (p.damage : ℚ) })
            (fun e => 0 ≤ e.reward) (fun x hx => hx) acc.enemies h
    · exact ⟨le_refl _, h⟩

theorem projFold_props (sqrtQ : ℚ → ℚ) (dt : ℚ) :
    ∀ (ps : List Projectile) (acc : ProjAcc), (∀ e ∈ acc.enemies, 0 ≤ e.reward) →
      acc.money ≤ (ps.foldl (stepProjectile sqrtQ dt) acc).money ∧
      ∀ e ∈ (ps.foldl (stepProjectile sqrtQ dt) acc).enemies, 0 ≤ e.reward := by
  intro ps
  induction ps with
  | nil => intro acc h; exact ⟨le_refl _, h⟩
  | cons a t ih =>
    intro acc h
    obtain ⟨h1, h2⟩ := stepProjectile_props sqrtQ dt acc a h
    obtain ⟨h3, h4⟩ := ih (stepProjectile sqrtQ dt acc a) h2
    exact ⟨le_trans h1 h3, h4⟩

/-- One movement step keeps the accumulator's list or appends exactly one
updated enemy; the appended enemy keeps its reward, and is either still
alive or has no (JS-truthy) path successor. -/
theorem stepEnemy_kept (nodes : List Node) (roadBlocks : List RoadBlock)
    (endNodeId : String) (pred : String → Option String) (dt : ℚ)
    (acc : MoveAcc) (e0 : Enemy) :
    (stepEnemy nodes roadBlocks endNodeId pred dt acc e0).kept = acc.kept ∨
    ∃ e', (stepEnemy nodes roadBlocks endNodeId pred dt acc e0).kept = acc.kept ++ [e'] ∧
      e'.reward = e0.reward ∧
      (0 < e'.hp ∨ e'.nextNodeId = none ∨ e'.nextNodeId = some "") := by
  have hcore : ∀ (en : Enemy) (next : String),
      (moveEnemyCore nodes roadBlocks dt en next).reward = en.reward := by
    intro en next
    simp only [moveEnemyCore]
    repeat' split
    all_goals rfl
  simp only [stepEnemy]
  split
  · next hfalsy =>
    split
    · exact Or.inl rfl
    · exact Or.inr ⟨_, rfl, rfl, Or.inr hfalsy⟩
  · split
    · next hhp =>
      exact Or.inr ⟨_, rfl, hcore _ _, Or.inl hhp⟩
    · exact Or.inl rfl

/-- Lift a per-enemy property through the movement fold. -/
theorem moveFold_kept (nodes : List Node) (roadBlocks : List RoadBlock)
    (endNodeId : String) (pred : String → Option String) (dt : ℚ) (P : Enemy → Prop) :
    ∀ (es : List Enemy) (acc : MoveAcc),
      (∀ e0 ∈ es, ∀ e' : Enemy, e'.reward = e0.reward →
        (0 < e'.hp ∨ e'.nextNodeId = none ∨ e'.nextNodeId = some "") → P e') →
      (∀ e ∈ acc.kept, P e) →
      ∀ e ∈ (es.foldl (stepEnemy nodes roadBlocks endNodeId pred dt) acc).kept, P e := by
  intro es
  induction es with
  | nil => intro acc _ hacc e he; exact hacc e he
  | cons a t ih =>
    intro acc hes hacc
    apply ih
    · intro e0 h0
      exact hes e0 (List.mem_cons_of_mem a h0)
    · rcases stepEnemy_kept nodes roadBlocks endNodeId pred dt acc a with heq | ⟨e', heq, hrew, hcond⟩
      · rw [heq]; exact hacc
      · rw [heq]
        intro e he
        rcases List.mem_append.mp he with hmem | hmem
        · exact hacc e hmem
        · rw [List.mem_singleton] at hmem
          rw [hmem]
          exact hes a (List.mem_cons_self a t) e' hrew hcond

theorem stepEnemy_status (nodes : List Node) (roadBlocks : List RoadBlock)
    (endNodeId : String) (pred : String → Option String) (dt : ℚ)
    (acc : MoveAcc) (e0 : Enemy) :
    (stepEnemy nodes roadBlocks endNodeId pred dt acc e0).status = acc.status ∨
    (stepEnemy nodes roadBlocks endNodeId pred dt acc e0).status = .game_over := by
  simp only [stepEnemy]
  split
  · split
    · split
      · exact Or.inr rfl
      · exact Or.inl rfl
    · exact Or.inl rfl
  · split
    · exact Or.inl rfl
    · exact Or.inl rfl

theorem moveFold_status (nodes : List Node) (roadBlocks : List RoadBlock)
    (endNodeId : String) (pred : String → Option String) (dt : ℚ) :
    ∀ (es : List Enemy) (acc : MoveAcc),
      (es.foldl (stepEnemy nodes roadBlocks endNodeId pred dt) acc).status = acc.status ∨
      (es.foldl (stepEnemy nodes roadBlocks endNodeId pred dt) acc).status = .game_over := by
  intro es
  induction es with
  | nil => intro acc; exact Or.inl rfl
  | cons a t ih =>
    intro acc
    rcases ih (stepEnemy nodes roadBlocks endNodeId pred dt acc a) with h | h
    · rcases stepEnemy_status nodes roadBlocks endNodeId pred dt acc a with h2 | h2
      · exact Or.inl (h.trans h2)
      · exact Or.inr (h.trans h2)
    · exact Or.inr h

theorem enemy_reward_nonneg (t : EnemyType) : 0 ≤ (ENEMY_TYPES t).reward := by
  cases t <;> decide

theorem spawnStep_money (r : ℕ → ℚ) (ids : ℕ → String) (s1 : GameState) (dt : ℚ) :
    (spawnStep r ids s1 dt).money = s1.money := by
  simp only [spawnStep]
  repeat' split
  all_goals rfl

theorem spawnStep_status (r : ℕ → ℚ) (ids : ℕ → String) (s1 : GameState) (dt : ℚ) :
    (spawnStep r ids s1 dt).status = s1.status := by
  simp only [spawnStep]
  repeat' split
  all_goals rfl

theorem spawnStep_timer (r : ℕ → ℚ) (ids : ℕ → String) (s1 : GameState) (dt : ℚ) :
    (spawnStep r ids s1 dt).timer = s1.timer := by
  simp only [spawnStep]
  repeat' split
  all_goals rfl

theorem spawnStep_projectiles (r : ℕ → ℚ) (ids : ℕ → String) (s1 : GameState) (dt : ℚ) :
    (spawnStep r ids s1 dt).projectiles = s1.projectiles := by
  simp only [spawnStep]
  repeat' split
  all_goals rfl

theorem spawnStep_enemies_rewards (r : ℕ → ℚ) (ids : ℕ → String) (s1 : GameState) (dt : ℚ)
    (h : ∀ e ∈ s1.enemies, 0 ≤ e.reward) :
    ∀ e ∈ (spawnStep r ids s1 dt).enemies, 0 ≤ e.reward := by
  simp only [spawnStep]
  split
  · split
    · intro e he
      rcases List.mem_append.mp he with hmem | hmem
      · exact h e hmem
      · rw [List.mem_singleton] at hmem
        rw [hmem]
        exact enemy_reward_nonneg _
    · exact h
  · exact h

theorem movementStep_money (dyn : List Edge) (s2 : GameState) (dt : ℚ) :
    (movementStep dyn s2 dt).money = s2.money := rfl

theorem movementStep_timer (dyn : List Edge) (s2 : GameState) (dt : ℚ) :
    (movementStep dyn s2 dt).timer = s2.timer := rfl

theorem movementStep_projectiles (dyn : List Edge) (s2 : GameState) (dt : ℚ) :
    (movementStep dyn s2 dt).projectiles = s2.projectiles := rfl

theorem movementStep_status (dyn : List Edge) (s2 : GameState) (dt : ℚ) :
    (movementStep dyn s2 dt).status = s2.status ∨
    (movementStep dyn s2 dt).status = .game_over :=
  moveFold_status s2.nodes s2.roadBlocks s2.endNodeId _ dt s2.enemies _

theorem movementStep_enemies_prop (dyn : List Edge) (s2 : GameState) (dt : ℚ)
    (P : Enemy → Prop)
    (hs : ∀ e0 ∈ s2.enemies, ∀ e' : Enemy, e'.reward = e0.reward →
      (0 < e'.hp ∨ e'.nextNodeId = none ∨ e'.nextNodeId = some "") → P e') :
    ∀ e ∈ (movementStep dyn s2 dt).enemies, P e :=
  moveFold_kept s2.nodes s2.roadBlocks s2.endNodeId _ dt P s2.enemies _ hs
    (fun e he => absurd he (List.not_mem_nil e))

/-- `MoneyInv`: nonnegative money and, since projectile impacts credit
enemy rewards into money, nonnegative enemy kill rewards. -/
def MoneyInv (s : GameState) : Prop :=
  0 ≤ s.money ∧ ∀ e ∈ s.enemies, 0 ≤ e.reward

theorem projectileStep_moneyInv (sqrtQ : ℚ → ℚ) (s3 : GameState) (dt : ℚ)
    (h : MoneyInv s3) : MoneyInv (projectileStep sqrtQ s3 dt) := by
  obtain ⟨h1, h2⟩ := projFold_props sqrtQ dt s3.projectiles
    { enemies := s3.enemies, money := s3.money, keptProjectiles := [] } h.2
  exact ⟨le_trans h.1 h1, h2⟩

theorem projectileStep_status (sqrtQ : ℚ → ℚ) (s3 : GameState) (dt : ℚ) :
    (projectileStep sqrtQ s3 dt).status = s3.status := rfl

theorem projectileStep_timer (sqrtQ : ℚ → ℚ) (s3 : GameState) (dt : ℚ) :
    (projectileStep sqrtQ s3 dt).timer = s3.timer := rfl

theorem projectileStep_no_projectiles (sqrtQ : ℚ → ℚ) (s3 : GameState) (dt : ℚ)
    (h : s3.projectiles = []) : (projectileStep sqrtQ s3 dt).enemies = s3.enemies := by
  unfold projectileStep
  rw [h]
  rfl

theorem towerStep_money (sqrtQ : ℚ → ℚ) (ids : ℕ → String) (s4 : GameState) (now : ℚ) :
    (towerStep sqrtQ ids s4 now).money = s4.money := rfl

theorem towerStep_enemies (sqrtQ : ℚ → ℚ) (ids : ℕ → String) (s4 : GameState) (now : ℚ) :
    (towerStep sqrtQ ids s4 now).enemies = s4.enemies := rfl

theorem towerStep_status (sqrtQ : ℚ → ℚ) (ids : ℕ → String) (s4 : GameState) (now : ℚ) :
    (towerStep sqrtQ ids s4 now).status = s4.status := rfl

theorem towerStep_timer (sqrtQ : ℚ → ℚ) (ids : ℕ → String) (s4 : GameState) (now : ℚ) :
    (towerStep sqrtQ ids s4 now).timer = s4.timer := rfl

theorem waveCheck_money (s5 : GameState) : (waveCheck s5).money = s5.money := by
  simp only [waveCheck]
  repeat' split
  all_goals rfl

theorem waveCheck_enemies (s5 : GameState) : (waveCheck s5).enemies = s5.enemies := by
  simp only [waveCheck]
  repeat' split
  all_goals rfl

theorem waveCheck_not_playing {s5 : GameState} (h : ¬ s5.status = .playing) :
    waveCheck s5 = s5 := by
  simp only [waveCheck]
  rw [if_neg]
  rintro ⟨-, -, h3⟩
  exact h h3

theorem startNextWave_moneyInv (r : ℕ → ℚ) (state : GameState) (h : MoneyInv state) :
    MoneyInv (startNextWave r state) := by
  unfold startNextWave
  split
  · exact ⟨by norm_num, fun e he => absurd he (List.not_mem_nil e)⟩
  · exact ⟨h.1, h.2⟩

/-- `updateGame` on a countdown status only runs the timer (and possibly
`startNextWave`). -/
theorem updateGame_countdown_eq (sqrtQ : ℚ → ℚ) (r : ℕ → ℚ) (ids : ℕ → String)
    (state : GameState) (dt now : ℚ)
    (h1 : state.status = .build_phase ∨ state.status = .stage_transition
      ∨ state.status = .wave_countdown) :
    updateGame sqrtQ r ids state dt now =
      (if state.timer - dt ≤ 0 then startNextWave r { state with timer := state.timer - dt }
       else { state with timer := state.timer - dt }) := by
  unfold updateGame
  rw [if_pos h1]

/-- C8's sound half at the tick level: a `game_over` state is returned
unchanged by `updateGame`. -/
theorem updateGame_game_over_eq (sqrtQ : ℚ → ℚ) (r : ℕ → ℚ) (ids : ℕ → String)
    (state : GameState) (dt now : ℚ) (h : state.status = .game_over) :
    updateGame sqrtQ r ids state dt now = state := by
  unfold updateGame
  rw [if_neg (by rw [h]; rintro (hc | hc | hc) <;> cases hc), if_pos h]

/-- On any other status the tick is the full simulation pipeline. -/
theorem updateGame_sim_eq (sqrtQ : ℚ → ℚ) (r : ℕ → ℚ) (ids : ℕ → String)
    (state : GameState) (dt now : ℚ)
    (h1 : ¬ (state.status = .build_phase ∨ state.status = .stage_transition
      ∨ state.status = .wave_countdown))
    (h2 : ¬ state.status = .game_over) :
    updateGame sqrtQ r ids state dt now =
      waveCheck (towerStep sqrtQ ids (projectileStep sqrtQ
        (movementStep
          (state.edges.map (dynamicWeight sqrtQ state.nodes state.towers
            (state.roadBlocks.filter (fun rb => rb.expiresAt > now))))
          (spawnStep r ids
            { state with roadBlocks := state.roadBlocks.filter (fun rb => rb.expiresAt > now) }
            dt)
          dt) dt) now) := by
  unfold updateGame
  rw [if_neg h1, if_neg h2]

theorem updateGame_moneyInv (sqrtQ : ℚ → ℚ) (r : ℕ → ℚ) (ids : ℕ → String)
    (state : GameState) (dt now : ℚ) (h : MoneyInv state) :
    MoneyInv (updateGame sqrtQ r ids state dt now) := by
  by_cases h1 : state.status = .build_phase ∨ state.status = .stage_transition
      ∨ state.status = .wave_countdown
  · rw [updateGame_countdown_eq sqrtQ r ids state dt now h1]
    split
    · exact startNextWave_moneyInv r _ ⟨h.1, h.2⟩
    · exact ⟨h.1, h.2⟩
  · by_cases h2 : state.status = .game_over
    · rw [updateGame_game_over_eq sqrtQ r ids state dt now h2]
      exact h
    · rw [updateGame_sim_eq sqrtQ r ids state dt now h1 h2]
      set s1 : GameState :=
        { state with roadBlocks := state.roadBlocks.filter (fun rb => rb.expiresAt > now) }
      set dyn : List Edge := state.edges.map (dynamicWeight sqrtQ state.nodes state.towers
        (state.roadBlocks.filter (fun rb => rb.expiresAt > now)))
      have hS : MoneyInv (spawnStep r ids s1 dt) := by
        constructor
        · rw [spawnStep_money]
          exact h.1
        · exact spawnStep_enemies_rewards r ids s1 dt h.2
      have hM : MoneyInv (movementStep dyn (spawnStep r ids s1 dt) dt) := by
        constructor
        · rw [movementStep_money]
          exact hS.1
        · exact movementStep_enemies_prop dyn (spawnStep r ids s1 dt) dt (fun e => 0 ≤ e.reward)
            (fun e0 h0 e' hrew _ => by show 0 ≤ e'.reward; rw [hrew]; exact hS.2 e0 h0)
      have hP : MoneyInv
          (projectileStep sqrtQ (movementStep dyn (spawnStep r ids s1 dt) dt) dt) :=
        projectileStep_moneyInv sqrtQ _ dt hM
      constructor
      · rw [waveCheck_money, towerStep_money]
        exact hP.1
      · intro e he
        rw [waveCheck_enemies, towerStep_enemies] at he
        exact hP.2 e he

/-! ## Concrete states for counterexamples and witnesses

The remaining statements evaluate the embedded code on closed inputs, so
the rational primitives (sealed behind their C implementations by default)
are restored to definitional transparency here. -/

attribute [local semireducible] Rat.add Rat.mul Rat.sub Rat.inv Nat.gcd

def sqrtZero : ℚ → ℚ := fun _ => 0

def randZero : ℕ → ℚ := fun _ => 0

def idsBlank : ℕ → String := fun _ => ""

def nA : Node := { id := "a", x := 0, y := 0, isPath := true }

def nB : Node := { id := "b", x := 1, y := 0, isPath := true }

def nC : Node := { id := "c", x := 2, y := 0, isPath := true }

def nBuild : Node := { id := "d", x := 3, y := 0, isPath := false }

def esABC : List Edge :=
  [{ fromId := "a", toId := "b", weight := 1, isWarp := false },
   { fromId := "b", toId := "c", weight := 2, isWarp := false }]

def enemyTen : Enemy :=
  { id := "e1", type := .basic, hp := 10, maxHp := 60, speed := 3/2,
    currentNodeId := "a", nextNodeId := none, x := 0, y := 0, progress := 0, reward := 8 }

def projAt (pid : String) : Projectile :=
  { id := pid, x := 0, y := 0, targetId := "e1", speed := 300, damage := 10, aoe := none }

def baseState : GameState :=
  { nodes := [nA, nB, nBuild], edges := [], enemies := [], towers := [],
    projectiles := [], roadBlocks := [], money := 800, lives := 20,
    wave := 1, stage := 1, maxWavesPerStage := 5, status := .playing, timer := 0,
    spawnTimer := 0, enemiesToSpawn := 0, startNodeId := "a", endNodeId := "b" }

def doubleHitState : GameState :=
  { baseState with
    enemies := [enemyTen], projectiles := [projAt "p1", projAt "p2"], money := 100 }

def negRewardState : GameState :=
  { baseState with
    money := 0, enemies := [{ enemyTen with reward := -8 }], projectiles := [projAt "p1"] }

def pausedSpawnState : GameState :=
  { baseState with status := .paused, enemiesToSpawn := 1 }

def gameOverState : GameState :=
  { baseState with status := .game_over }

/-! ## Claim C2 -/

/-- C2: on a graph whose edge endpoints all lie in the node set and whose
edge weights are all nonnegative, `bellmanFord` reports no negative cycle,
its distance map is ⊤ exactly on the unreachable nodes and elsewhere is the
exact shortest-walk distance (attained by some walk and a lower bound for
every walk), every recorded predecessor is the tail of an edge that is tight
for the final distances, and a node without a predecessor is the source or
unreachable. -/
theorem bellmanFord_nonneg_correct (nodes : List Node) (edges : List Edge) (s : String)
    (hin : ∀ e ∈ edges, e.fromId ∈ nodes.map Node.id ∧ e.toId ∈ nodes.map Node.id)
    (hw : ∀ e ∈ edges, 0 ≤ e.weight) :
    (bellmanFord nodes edges s).hasNegativeCycle = false ∧
    (∀ v, ((bellmanFord nodes edges s).distances v = ⊤ ↔
      ∀ w, ¬ IsWalkFrom edges s v w)) ∧
    (∀ v (c : ℤ), (bellmanFord nodes edges s).distances v = (c : WithTop ℤ) →
      (∃ w, IsWalkFrom edges s v w ∧ weightSum w = c) ∧
      (∀ w, IsWalkFrom edges s v w → c ≤ weightSum w)) ∧
    (∀ v u, (bellmanFord nodes edges s).predecessors v = some u →
      ∃ e, e ∈ edges ∧ e.fromId = u ∧ e.toId = v ∧
        (bellmanFord nodes edges s).distances v =
          (bellmanFord nodes edges s).distances e.fromId + (e.weight : WithTop ℤ)) ∧
    (∀ v, (bellmanFord nodes edges s).predecessors v = none →
      v = s ∨ (bellmanFord nodes edges s).distances v = ⊤) := by
  have hred : ∀ e ∈ edges,
      0 ≤ (e.weight : ℚ) + (fun _ : String => (0:ℚ)) e.fromId
        - (fun _ : String => (0:ℚ)) e.toId := by
    intro e he
    have h0 := hw e he
    show (0:ℚ) ≤ (e.weight : ℚ) + 0 - 0
    have h1 : (0:ℚ) ≤ (e.weight : ℚ) := by exact_mod_cast h0
    linarith
  obtain ⟨hsound, hbound, -, hflag, hpred, hprednone⟩ :=
    bellmanFord_correct nodes edges s (fun _ => 0) hin hred
  refine ⟨hflag, ?_, ?_, hpred, hprednone⟩
  · intro v
    constructor
    · intro htop w hwalk
      have hb := hbound v w hwalk
      rw [htop] at hb
      exact WithTop.coe_ne_top (top_le_iff.mp hb)
    · intro hnw
      by_contra hne
      rcases WithTop.ne_top_iff_exists.mp hne with ⟨c, hc⟩
      obtain ⟨w, hwalk, -⟩ := hsound v c hc.symm
      exact hnw w hwalk
  · intro v c hc
    refine ⟨hsound v c hc, ?_⟩
    intro w hwalk
    have hb := hbound v w hwalk
    rw [hc] at hb
    exact_mod_cast hb

theorem bellmanFord_nonneg_correct_witness :
    (∀ e ∈ esABC, e.fromId ∈ [nA, nB, nC].map Node.id ∧ e.toId ∈ [nA, nB, nC].map Node.id) ∧
    (∀ e ∈ esABC, 0 ≤ e.weight) ∧
    (bellmanFord [nA, nB, nC] esABC "a").hasNegativeCycle = false :=
  ⟨by decide, by decide,
    (bellmanFord_nonneg_correct [nA, nB, nC] esABC "a" (by decide) (by decide)).1⟩

/-! ## Claim C4 -/

theorem placeTower_moneyInv (state : GameState) (nodeId newId : String)
    (h : MoneyInv state) : MoneyInv (placeTower state nodeId newId) := by
  rcases hf : state.nodes.find? (fun n => n.id == nodeId) with - | node
  · simp only [placeTower, hf]
    exact h
  · simp only [placeTower, hf]
    by_cases hP : node.isPath = true ∨ state.money < 100
    · rw [if_pos hP]
      exact h
    · rw [if_neg hP]
      by_cases hQ : (state.towers.find? (fun t => t.nodeId == nodeId)).isSome = true
      · rw [if_pos hQ]
        exact h
      · rw [if_neg hQ]
        have hm : ¬ state.money < 100 := fun hc => hP (Or.inr hc)
        have h0 := h.1
        constructor
        · show 0 ≤ state.money - 100
          omega
        · exact h.2

theorem placeRoadBlock_moneyInv (state : GameState) (nodeId : String) (now : ℚ)
    (h : MoneyInv state) : MoneyInv (placeRoadBlock state nodeId now) := by
  rcases hf : state.nodes.find? (fun n => n.id == nodeId) with - | node
  · simp only [placeRoadBlock, hf]
    exact h
  · simp only [placeRoadBlock, hf]
    by_cases hP : ¬ node.isPath = true ∨ state.money < 50
    · rw [if_pos hP]
      exact h
    · rw [if_neg hP]
      by_cases hQ : (state.roadBlocks.find? (fun rb => rb.nodeId == nodeId)).isSome = true
      · rw [if_pos hQ]
        exact h
      · rw [if_neg hQ]
        have hm : ¬ state.money < 50 := fun hc => hP (Or.inr hc)
        have h0 := h.1
        constructor
        · show 0 ≤ state.money - 50
          omega
        · exact h.2

theorem upgradeTower_moneyInv (state : GameState) (towerId : String) (uk : UpgradeKind)
    (h : MoneyInv state) : MoneyInv (upgradeTower state towerId uk) := by
  rcases hf : state.towers.findIdx? (fun t => t.id == towerId) with - | i
  · simp only [upgradeTower, hf]
    exact h
  · simp only [upgradeTower, hf]
    by_cases hm2 : state.money < 200
    · rw [if_pos hm2]
      exact h
    · rw [if_neg hm2]
      rcases hget : state.towers[i]? with - | tower
      · simp only [hget]
        exact h
      · simp only [hget]
        by_cases h1 : tower.tier = 1
        · rw [if_pos h1]
          have h0 := h.1
          constructor
          · show 0 ≤ state.money - 200
            omega
          · exact h.2
        · rw [if_neg h1]
          by_cases h2 : tower.tier = 2
          · rw [if_pos h2]
            by_cases h4 : state.money < 400
            · rw [if_pos h4]
              exact h
            · rw [if_neg h4]
              have h0 := h.1
              constructor
              · show 0 ≤ state.money - 400
                omega
              · exact h.2
          · rw [if_neg h2]
            exact h

/-- C4 (amended): as stated the claim is false — `updateGame` credits kill
rewards into money without a sign check, so a (hypothetical) negative-reward
enemy drives money below zero from a money ≥ 0 state (see the
counterexample).  What the code does maintain is the joint invariant
`MoneyInv` (money ≥ 0 together with all live enemies' rewards ≥ 0): it holds
of `initGameState` (money 800) and is preserved by `updateGame`,
`placeTower`, `placeRoadBlock`, `upgradeTower` and `startNextWave`; costlier
commands than the current money are rejected unchanged, never clamped. -/
theorem money_never_negative :
    (∀ r : ℕ → ℚ, (initGameState r).money = 800 ∧ MoneyInv (initGameState r)) ∧
    (∀ (sqrtQ : ℚ → ℚ) (r : ℕ → ℚ) (ids : ℕ → String) (state : GameState) (dt now : ℚ),
      MoneyInv state → MoneyInv (updateGame sqrtQ r ids state dt now)) ∧
    (∀ (state : GameState) (nodeId newId : String),
      MoneyInv state → MoneyInv (placeTower state nodeId newId)) ∧
    (∀ (state : GameState) (nodeId : String) (now : ℚ),
      MoneyInv state → MoneyInv (placeRoadBlock state nodeId now)) ∧
    (∀ (state : GameState) (towerId : String) (uk : UpgradeKind),
      MoneyInv state → MoneyInv (upgradeTower state towerId uk)) ∧
    (∀ (r : ℕ → ℚ) (state : GameState),
      MoneyInv state → MoneyInv (startNextWave r state)) := by
  refine ⟨?_,
    fun sqrtQ r ids state dt now h => updateGame_moneyInv sqrtQ r ids state dt now h,
    fun state nodeId newId h => placeTower_moneyInv state nodeId newId h,
    fun state nodeId now h => placeRoadBlock_moneyInv state nodeId now h,
    fun state towerId uk h => upgradeTower_moneyInv state towerId uk h,
    fun r state h => startNextWave_moneyInv r state h⟩
  intro r
  exact ⟨rfl, by show (0:ℤ) ≤ 800; norm_num, fun e he => absurd he (List.not_mem_nil e)⟩

/-- Counterexample to C4 as stated: `negRewardState` has money 0 ≥ 0, but one
tick lets its single projectile kill the (negative-reward) enemy and credit
the reward, leaving money −8 < 0. -/
theorem updateGame_money_negative_cex :
    0 ≤ negRewardState.money ∧
    (updateGame sqrtZero randZero idsBlank negRewardState 16 0).money < 0 := by
  decide

theorem money_never_negative_witness :
    MoneyInv baseState ∧ MoneyInv (updateGame sqrtZero randZero idsBlank baseState 16 0) :=
  ⟨⟨by decide, by decide⟩,
   money_never_negative.2.1 sqrtZero randZero idsBlank baseState 16 0 ⟨by decide, by decide⟩⟩

/-! ## Claim C5 -/

/-- Counterexample to C5 as stated: a tick on a paused state is not a no-op
— `updateGame` has no `paused` branch, so the simulation pipeline runs (here
the spawn timer accumulates the elapsed 500ms). -/
theorem updateGame_paused_not_noop_cex :
    pausedSpawnState.status = .paused ∧
    updateGame sqrtZero randZero idsBlank pausedSpawnState 500 0 ≠ pausedSpawnState := by
  decide

/-- C5 (amended): `updateGame` itself does not special-case `paused` (the
pause no-op lives in the App.tsx caller, which skips the `updateGame` call);
the counterexample shows spawning still advances.  What does hold inside the
engine for a paused state: the countdown timer is untouched, and the status
stays `paused` except for the in-tick transition to `game_over`. -/
theorem updateGame_paused_partial_frame (sqrtQ : ℚ → ℚ) (r : ℕ → ℚ) (ids : ℕ → String)
    (state : GameState) (dt now : ℚ) (hst : state.status = .paused) :
    (updateGame sqrtQ r ids state dt now).timer = state.timer ∧
    ((updateGame sqrtQ r ids state dt now).status = .paused ∨
      (updateGame sqrtQ r ids state dt now).status = .game_over) := by
  have h1 : ¬ (state.status = .build_phase ∨ state.status = .stage_transition
      ∨ state.status = .wave_countdown) := by
    rw [hst]
    rintro (hc | hc | hc) <;> cases hc
  have h2 : ¬ state.status = .game_over := by
    rw [hst]
    rintro hc
    cases hc
  rw [updateGame_sim_eq sqrtQ r ids state dt now h1 h2]
  set s1 : GameState :=
    { state with roadBlocks := state.roadBlocks.filter (fun rb => rb.expiresAt > now) }
  set dyn : List Edge := state.edges.map (dynamicWeight sqrtQ state.nodes state.towers
    (state.roadBlocks.filter (fun rb => rb.expiresAt > now)))
  have hXstat :
      (movementStep dyn (spawnStep r ids s1 dt) dt).status = .paused ∨
      (movementStep dyn (spawnStep r ids s1 dt) dt).status = .game_over := by
    rcases movementStep_status dyn (spawnStep r ids s1 dt) dt with h3 | h3
    · left
      rw [h3, spawnStep_status]
      exact hst
    · right
      exact h3
  have hnp : ¬ (towerStep sqrtQ ids (projectileStep sqrtQ
      (movementStep dyn (spawnStep r ids s1 dt) dt) dt) now).status = .playing := by
    have ht : (towerStep sqrtQ ids (projectileStep sqrtQ
        (movementStep dyn (spawnStep r ids s1 dt) dt) dt) now).status =
        (movementStep dyn (spawnStep r ids s1 dt) dt).status := rfl
    rw [ht]
    rcases hXstat with h3 | h3 <;> rw [h3] <;> rintro hc <;> cases hc
  rw [waveCheck_not_playing hnp]
  constructor
  · show (spawnStep r ids s1 dt).timer = state.timer
    rw [spawnStep_timer]
  · exact hXstat

theorem updateGame_paused_partial_frame_witness :
    pausedSpawnState.status = .paused ∧
    (updateGame sqrtZero randZero idsBlank pausedSpawnState 500 0).timer =
      pausedSpawnState.timer ∧
    ((updateGame sqrtZero randZero idsBlank pausedSpawnState 500 0).status = .paused ∨
     (updateGame sqrtZero randZero idsBlank pausedSpawnState 500 0).status = .game_over) :=
  ⟨rfl, updateGame_paused_partial_frame sqrtZero randZero idsBlank pausedSpawnState 500 0 rfl⟩

/-! ## Claim C6 -/

/-- Counterexample to C6 as stated: after one tick on `doubleHitState`, the
enemy killed by the projectiles is still in the enemy list, with hp −10 ≤ 0:
combat happens after this tick's removal pass, and hp is not clamped at 0. -/
theorem updateGame_dead_enemy_cex :
    ∃ e ∈ (updateGame sqrtZero randZero idsBlank doubleHitState 16 0).enemies,
      e.hp ≤ 0 := by
  decide

/-- C6 (amended): movement (the phase that removes dead enemies) runs before
combat, so a freshly killed enemy survives the tick that killed it (see the
counterexample) and is only dropped a tick later.  What does hold: for a
playing state with no projectiles in flight (so this tick's combat deals no
damage), every enemy in the returned state either has positive hp or has an
empty next-node marker (the freshly respawned/arrived case the removal
filter keeps regardless of hp). -/
theorem updateGame_dead_enemy_behavior (sqrtQ : ℚ → ℚ) (r : ℕ → ℚ) (ids : ℕ → String)
    (state : GameState) (dt now : ℚ)
    (hst : state.status = .playing) (hproj : state.projectiles = []) :
    ∀ e ∈ (updateGame sqrtQ r ids state dt now).enemies,
      0 < e.hp ∨ e.nextNodeId = none ∨ e.nextNodeId = some "" := by
  have h1 : ¬ (state.status = .build_phase ∨ state.status = .stage_transition
      ∨ state.status = .wave_countdown) := by
    rw [hst]
    rintro (hc | hc | hc) <;> cases hc
  have h2 : ¬ state.status = .game_over := by
    rw [hst]
    rintro hc
    cases hc
  rw [updateGame_sim_eq sqrtQ r ids state dt now h1 h2]
  set s1 : GameState :=
    { state with roadBlocks := state.roadBlocks.filter (fun rb => rb.expiresAt > now) }
  set dyn : List Edge := state.edges.map (dynamicWeight sqrtQ state.nodes state.towers
    (state.roadBlocks.filter (fun rb => rb.expiresAt > now)))
  intro e he
  rw [waveCheck_enemies, towerStep_enemies] at he
  have hmp : (movementStep dyn (spawnStep r ids s1 dt) dt).projectiles = [] := by
    rw [movementStep_projectiles, spawnStep_projectiles]
    exact hproj
  rw [projectileStep_no_projectiles sqrtQ _ dt hmp] at he
  exact movementStep_enemies_prop dyn (spawnStep r ids s1 dt) dt
    (fun e => 0 < e.hp ∨ e.nextNodeId = none ∨ e.nextNodeId = some "")
    (fun e0 _ e' _ hc => hc) e he

theorem updateGame_dead_enemy_behavior_witness :
    baseState.status = .playing ∧ baseState.projectiles = [] ∧
    ∀ e ∈ (updateGame sqrtZero randZero idsBlank baseState 16 0).enemies,
      0 < e.hp ∨ e.nextNodeId = none ∨ e.nextNodeId = some "" :=
  ⟨rfl, rfl,
    updateGame_dead_enemy_behavior sqrtZero randZero idsBlank baseState 16 0 rfl rfl⟩

/-! ## Claim C7 -/

/-- C7 (code bug): two non-area projectiles striking the same 10-hp,
reward-8 enemy in one tick credit the reward twice (money 100 → 116).  The
non-area impact branch adds `target.reward` whenever the post-hit hp is ≤ 0,
with no check that the pre-hit hp was positive — unlike the area branch,
which credits only on the positive → non-positive crossing. -/
theorem updateGame_double_credit :
    doubleHitState.money = 100 ∧
    (∀ e ∈ doubleHitState.enemies, e.reward = 8) ∧
    (updateGame sqrtZero randZero idsBlank doubleHitState 16 0).money = 116 := by
  decide

/-! ## Claim C8 -/

/-- Counterexample to C8 as stated: the command functions have no status
guard, so `placeTower` on a `game_over` state whose own preconditions hold
(buildable node "d", money 800) mutates the state. -/
theorem placeTower_mutates_game_over :
    gameOverState.status = .game_over ∧
    placeTower gameOverState "d" "t1" ≠ gameOverState := by
  decide

/-- C8 (amended): only the tick respects the terminal status — `updateGame`
returns a `game_over` state unchanged — while the command functions ignore
status entirely: each commutes with an arbitrary status replacement (so a
game_over state is mutated exactly as a playing one would be), and
`startNextWave` does not read the status at all. -/
theorem game_over_guard_scope :
    (∀ (sqrtQ : ℚ → ℚ) (r : ℕ → ℚ) (ids : ℕ → String) (state : GameState) (dt now : ℚ),
      state.status = .game_over → updateGame sqrtQ r ids state dt now = state) ∧
    (∀ (state : GameState) (nodeId newId : String) (st : GameStatus),
      placeTower { state with status := st } nodeId newId =
        { placeTower state nodeId newId with status := st }) ∧
    (∀ (state : GameState) (nodeId : String) (now : ℚ) (st : GameStatus),
      placeRoadBlock { state with status := st } nodeId now =
        { placeRoadBlock state nodeId now with status := st }) ∧
    (∀ (state : GameState) (towerId : String) (uk : UpgradeKind) (st : GameStatus),
      upgradeTower { state with status := st } towerId uk =
        { upgradeTower state towerId uk with status := st }) ∧
    (∀ (r : ℕ → ℚ) (state : GameState) (st : GameStatus),
      startNextWave r { state with status := st } = startNextWave r state) := by
  refine ⟨fun sqrtQ r ids state dt now h =>
      updateGame_game_over_eq sqrtQ r ids state dt now h, ?_, ?_, ?_, ?_⟩
  · intro state nodeId newId st
    rcases hf : state.nodes.find? (fun n => n.id == nodeId) with - | node
    · simp only [placeTower, hf]
    · simp only [placeTower, hf]
      by_cases hP : node.isPath = true ∨ state.money < 100
      · rw [if_pos hP, if_pos hP]
      · rw [if_neg hP, if_neg hP]
        by_cases hQ : (state.towers.find? (fun t => t.nodeId == nodeId)).isSome = true
        · rw [if_pos hQ, if_pos hQ]
        · rw [if_neg hQ, if_neg hQ]
  · intro state nodeId now st
    rcases hf : state.nodes.find? (fun n => n.id == nodeId) with - | node
    · simp only [placeRoadBlock, hf]
    · simp only [placeRoadBlock, hf]
      by_cases hP : ¬ node.isPath = true ∨ state.money < 50
      · rw [if_pos hP, if_pos hP]
      · rw [if_neg hP, if_neg hP]
        by_cases hQ : (state.roadBlocks.find? (fun rb => rb.nodeId == nodeId)).isSome = true
        · rw [if_pos hQ, if_pos hQ]
        · rw [if_neg hQ, if_neg hQ]
  · intro state towerId uk st
    rcases hf : state.towers.findIdx? (fun t => t.id == towerId) with - | i
    · simp only [upgradeTower, hf]
    · simp only [upgradeTower, hf]
      by_cases hm2 : state.money < 200
      · rw [if_pos hm2, if_pos hm2]
      · rw [if_neg hm2, if_neg hm2]
        rcases hget : state.towers[i]? with - | tower
        · simp only [hget]
        · simp only [hget]
          by_cases h1 : tower.tier = 1
          · rw [if_pos h1, if_pos h1]
          · rw [if_neg h1, if_neg h1]
            by_cases h2 : tower.tier = 2
            · rw [if_pos h2, if_pos h2]
              by_cases h4 : state.money < 400
              · rw [if_pos h4, if_pos h4]
              · rw [if_neg h4, if_neg h4]
            · rw [if_neg h2, if_neg h2]
  · intro r state st
    simp only [startNextWave]

theorem game_over_guard_scope_witness :
    updateGame sqrtZero randZero idsBlank gameOverState 16 0 = gameOverState ∧
    placeTower { baseState with status := .game_over } "d" "t1" =
      { placeTower baseState "d" "t1" with status := .game_over } :=
  ⟨game_over_guard_scope.1 sqrtZero randZero idsBlank gameOverState 16 0 rfl,
   game_over_guard_scope.2.1 baseState "d" "t1" .game_over⟩

/-! ## Claim C9 -/

/-- C9: every failed precondition makes a command the identity.
`placeTower` returns the input state unchanged on an unknown node, a
walkable (isPath) node, money below 100, or a node already hosting a tower;
`placeRoadBlock` on an unknown node, a non-walkable node, money below 50, or
a duplicate block; `upgradeTower` on an unknown tower id, money below the
200 upfront check, a tier-2 tower with money below 400, or a tower at
neither tier 1 nor tier 2 (i.e. tier 3). -/
theorem commands_all_or_nothing :
    (∀ (state : GameState) (nodeId newId : String),
      (state.nodes.find? (fun n => n.id == nodeId) = none ∨
       (∃ node, state.nodes.find? (fun n => n.id == nodeId) = some node ∧
         node.isPath = true) ∨
       state.money < 100 ∨
       (state.towers.find? (fun t => t.nodeId == nodeId)).isSome = true) →
      placeTower state nodeId newId = state) ∧
    (∀ (state : GameState) (nodeId : String) (now : ℚ),
      (state.nodes.find? (fun n => n.id == nodeId) = none ∨
       (∃ node, state.nodes.find? (fun n => n.id == nodeId) = some node ∧
         node.isPath = false) ∨
       state.money < 50 ∨
       (state.roadBlocks.find? (fun rb => rb.nodeId == nodeId)).isSome = true) →
      placeRoadBlock state nodeId now = state) ∧
    (∀ (state : GameState) (towerId : String) (uk : UpgradeKind),
      (state.towers.findIdx? (fun t => t.id == towerId) = none ∨
       state.money < 200 ∨
       (∃ i tower, state.towers.findIdx? (fun t => t.id == towerId) = some i ∧
         state.towers[i]? = some tower ∧ tower.tier = 2 ∧ state.money < 400) ∨
       (∃ i tower, state.towers.findIdx? (fun t => t.id == towerId) = some i ∧
         state.towers[i]? = some tower ∧ tower.tier ≠ 1 ∧ tower.tier ≠ 2)) →
      upgradeTower state towerId uk = state) := by
  refine ⟨?_, ?_, ?_⟩
  · rintro state nodeId newId (hf | ⟨node, hf, hp⟩ | hm | ht)
    · simp only [placeTower, hf]
    · simp only [placeTower, hf]
      rw [if_pos (Or.inl hp)]
    · rcases hf : state.nodes.find? (fun n => n.id == nodeId) with - | node
      · simp only [placeTower, hf]
      · simp only [placeTower, hf]
        rw [if_pos (Or.inr hm)]
    · rcases hf : state.nodes.find? (fun n => n.id == nodeId) with - | node
      · simp only [placeTower, hf]
      · simp only [placeTower, hf]
        by_cases hP : node.isPath = true ∨ state.money < 100
        · rw [if_pos hP]
        · rw [if_neg hP, if_pos ht]
  · rintro state nodeId now (hf | ⟨node, hf, hp⟩ | hm | ht)
    · simp only [placeRoadBlock, hf]
    · simp only [placeRoadBlock, hf]
      rw [if_pos (Or.inl (by rw [hp]; exact Bool.false_ne_true))]
    · rcases hf : state.nodes.find? (fun n => n.id == nodeId) with - | node
      · simp only [placeRoadBlock, hf]
      · simp only [placeRoadBlock, hf]
        rw [if_pos (Or.inr hm)]
    · rcases hf : state.nodes.find? (fun n => n.id == nodeId) with - | node
      · simp only [placeRoadBlock, hf]
      · simp only [placeRoadBlock, hf]
        by_cases hP : ¬ node.isPath = true ∨ state.money < 50
        · rw [if_pos hP]
        · rw [if_neg hP, if_pos ht]
  · rintro state towerId uk
      (hf | hm | ⟨i, tower, hf, hget, ht2, hm4⟩ | ⟨i, tower, hf, hget, ht1, ht2⟩)
    · simp only [upgradeTower, hf]
    · rcases hf : state.towers.findIdx? (fun t => t.id == towerId) with - | i
      · simp only [upgradeTower, hf]
      · simp only [upgradeTower, hf]
        rw [if_pos hm]
    · simp only [upgradeTower, hf]
      by_cases hm2 : state.money < 200
      · rw [if_pos hm2]
      · rw [if_neg hm2]
        simp only [hget]
        rw [if_neg (by rw [ht2]; norm_num), if_pos ht2, if_pos hm4]
    · simp only [upgradeTower, hf]
      by_cases hm2 : state.money < 200
      · rw [if_pos hm2]
      · rw [if_neg hm2]
        simp only [hget]
        rw [if_neg ht1, if_neg ht2]

theorem commands_all_or_nothing_witness :
    placeTower baseState "a" "t1" = baseState ∧
    placeRoadBlock baseState "zzz" 0 = baseState ∧
    upgradeTower baseState "t9" .fast_shot = baseState :=
  ⟨commands_all_or_nothing.1 baseState "a" "t1"
      (Or.inr (Or.inl ⟨nA, rfl, rfl⟩)),
   commands_all_or_nothing.2.1 baseState "zzz" 0 (Or.inl rfl),
   commands_all_or_nothing.2.2 baseState "t9" .fast_shot (Or.inl rfl)⟩

/-! ## Claim C10 -/

/-- C10: a successful `placeTower` changes exactly the money (−100) and
towers (one tier-1 tower appended) fields, and a successful `placeRoadBlock`
changes exactly the money (−50) and roadBlocks (one block expiring 5000ms
from now appended) fields; the record-update equations leave every other
field of the state untouched. -/
theorem place_commands_frame :
    (∀ (state : GameState) (nodeId newId : String) (node : Node),
      state.nodes.find? (fun n => n.id == nodeId) = some node →
      node.isPath = false → ¬ state.money < 100 →
      state.towers.find? (fun t => t.nodeId == nodeId) = none →
      placeTower state nodeId newId =
        { state with
          money := state.money - 100,
          towers := state.towers ++
            [{ id := newId, nodeId := nodeId, type := .basic, damage := 10, range := 120,
               fireRate := 800, lastFired := 0, cost := 100, tier := 1, aoe := none }] }) ∧
    (∀ (state : GameState) (nodeId : String) (now : ℚ) (node : Node),
      state.nodes.find? (fun n => n.id == nodeId) = some node →
      node.isPath = true → ¬ state.money < 50 →
      state.roadBlocks.find? (fun rb => rb.nodeId == nodeId) = none →
      placeRoadBlock state nodeId now =
        { state with
          money := state.money - 50,
          roadBlocks := state.roadBlocks ++ [{ nodeId := nodeId, expiresAt := now + 5000 }] }) := by
  constructor
  · intro state nodeId newId node hf hp hm ht
    simp only [placeTower, hf]
    have h1 : ¬ (node.isPath = true ∨ state.money < 100) := by
      rintro (hc | hc)
      · rw [hp] at hc
        cases hc
      · exact hm hc
    have h2 : ¬ (state.towers.find? (fun t => t.nodeId == nodeId)).isSome = true := by
      rw [ht]
      decide
    rw [if_neg h1, if_neg h2]
  · intro state nodeId now node hf hp hm ht
    simp only [placeRoadBlock, hf]
    have h1 : ¬ (¬ node.isPath = true ∨ state.money < 50) := by
      rintro (hc | hc)
      · exact hc hp
      · exact hm hc
    have h2 : ¬ (state.roadBlocks.find? (fun rb => rb.nodeId == nodeId)).isSome = true := by
      rw [ht]
      decide
    rw [if_neg h1, if_neg h2]

theorem place_commands_frame_witness :
    placeTower baseState "d" "t1" =
      { baseState with
        money := baseState.money - 100,
        towers := baseState.towers ++
          [{ id := "t1", nodeId := "d", type := .basic, damage := 10, range := 120,
             fireRate := 800, lastFired := 0, cost := 100, tier := 1, aoe := none }] } ∧
    placeRoadBlock baseState "a" 0 =
      { baseState with
        money := baseState.money - 50,
        roadBlocks := baseState.roadBlocks ++ [{ nodeId := "a", expiresAt := 0 + 5000 }] } :=
  ⟨place_commands_frame.1 baseState "d" "t1" nBuild rfl rfl (by decide) rfl,
   place_commands_frame.2 baseState "a" 0 nA rfl rfl (by decide) rfl⟩

end BellmanDefense
